import Mathlib

/-!
Verification of the MLE module loader (src/index.ts, src/logger.ts).

Texts are modelled as `List Char`.  JavaScript string primitives used by the
source (`split`, the global hyphen-to-underscore `replace`, `replaceAll` with
its `GetSubstitution` handling of `$`-escapes in the replacement, template
literals, the `matchAll` scan with the regex `\/npm\/.+?\/\+esm`, whose dot
excludes the four line terminators) are embedded as executable functions
below.  `processModule` / `app` are embedded with explicit state
passing; the unbounded recursion of `processModule` through secondary entry
points is given a fuel parameter (`none` = fuel exhausted), and all recursion
is structural so that concrete runs evaluate by `decide`.
-/

set_option maxRecDepth 20000

/-- Boolean prefix test on lists of characters (JS `startsWith`, used to model
the scanning behaviour of `replaceAll` and of the module-specifier regex). -/
def isPreB : List Char → List Char → Bool
  | [], _ => true
  | _ :: _, [] => false
  | a :: as, b :: bs => a = b && isPreB as bs

/-- Substring occurrence as a proposition: `q` occurs somewhere in `t`. -/
def SubStr (q t : List Char) : Prop := ∃ a b, t = a ++ q ++ b

/-- Boolean substring test, scanning every start position. -/
def subStrB (q : List Char) : List Char → Bool
  | [] => q.isEmpty
  | c :: cs => isPreB q (c :: cs) || subStrB q cs

/-- JavaScript `String.prototype.split` with a one-character separator:
`"a@@b".split("@") = ["a","","b"]`, `"".split("@") = [""]`. -/
def jsSplit (sep : Char) : List Char → List (List Char)
  | [] => [[]]
  | c :: cs =>
    if c = sep then [] :: jsSplit sep cs
    else
      match jsSplit sep cs with
      | [] => [[c]]
      | s :: ss => (c :: s) :: ss

/-- Result record of `splitPackageVersion` (src/index.ts:30-42).  `version` is
`none` when the raw token has no `@` (JS `nameVerSplit[1]` is `undefined`). -/
structure PkgInfo where
  originalName : List Char
  name : List Char
  version : Option (List Char)
deriving DecidableEq, Repr

/-- src/index.ts:30-42.  `pkgVer.split("@")`, take component 0 as the original
name, replace every hyphen of it by an underscore (a global regex replace) for
the database name, take component 1 (possibly absent) as the version. -/
def splitPackageVersion (pkgVer : List Char) : PkgInfo :=
  let nameVerSplit := jsSplit '@' pkgVer
  let targetName := (nameVerSplit.headD []).map (fun c => if c = '-' then '_' else c)
  { originalName := nameVerSplit.headD []
    name := targetName
    version := nameVerSplit.get? 1 }

/-- Rendering of a possibly-undefined value inside a JS template literal:
`${undefined}` prints as the text `undefined`. -/
def versionStr : Option (List Char) → List Char
  | some v => v
  | none => "undefined".data

/-- ECMAScript `GetSubstitution` for a string search value, with no capture
groups and no named captures — the situation of every `replaceAll` call of the
source (src/index.ts:213, 224): in the replacement template `$$` stands for a
dollar, `$&` for the matched text, dollar-backquote for the part of the
original string before the match, dollar-quote for the part after it, and any
other `$`-sequence (digits, `$<`, a trailing `$`) is literal because there are
no captures. -/
def getSubstitution (matched before after : List Char) : List Char → List Char
  | [] => []
  | [c] => [c]
  | c :: d :: rest =>
    if c = '$' then
      if d = '$' then '$' :: getSubstitution matched before after rest
      else if d = '&' then matched ++ getSubstitution matched before after rest
      else if d = Char.ofNat 96 then before ++ getSubstitution matched before after rest
      else if d = Char.ofNat 39 then after ++ getSubstitution matched before after rest
      else c :: d :: getSubstitution matched before after rest
    else c :: getSubstitution matched before after (d :: rest)

/-- Fuel-driven core of JavaScript `String.prototype.replaceAll` with a string
pattern: find the leftmost occurrence, emit the `GetSubstitution` expansion of
the replacement (`done` is the part of the original string already scanned, so
the dollar-backquote and dollar-quote expansions see the original string, as
the specification demands), continue scanning after the matched text.
Structural on the fuel so that it reduces by `decide`; the wrapper
`replaceAll` supplies fuel `t.length`, which always suffices. -/
def replaceAllGo (p r : List Char) : Nat → List Char → List Char → List Char
  | _, _, [] => []
  | 0, _, t => t
  | Nat.succ f, done, c :: cs =>
    if p ≠ [] ∧ isPreB p (c :: cs) then
      getSubstitution p done ((c :: cs).drop p.length) r
        ++ replaceAllGo p r f (done ++ p) ((c :: cs).drop p.length)
    else
      c :: replaceAllGo p r f (done ++ [c]) cs

/-- JavaScript `t.replaceAll(p, r)` for a nonempty string pattern `p` (every
pattern built by the source starts with the literal `/npm/`, so is nonempty;
for the empty pattern JS would interleave `r`, a case never exercised). -/
def replaceAll (p r t : List Char) : List Char := replaceAllGo p r t.length [] t

/-- Plain text substitution: the value of `replaceAll` when the replacement
contains no `$`, so that `GetSubstitution` is the identity on the template
(`replaceAll_eq_plain` below).  The combinatorial substitution lemmas are
stated for this form and transported to `replaceAll` where a dollar-freeness
hypothesis is available. -/
def replaceAllPlainGo (p r : List Char) : Nat → List Char → List Char
  | _, [] => []
  | 0, t => t
  | Nat.succ f, c :: cs =>
    if p ≠ [] ∧ isPreB p (c :: cs) then
      r ++ replaceAllPlainGo p r f ((c :: cs).drop p.length)
    else
      c :: replaceAllPlainGo p r f cs

/-- Plain-substitution wrapper. -/
def replaceAllPlain (p r t : List Char) : List Char := replaceAllPlainGo p r t.length t

/-- Canonical plain reference pattern of a dependency, as built at
src/index.ts:216: `/npm/${originalName}@${version}/+esm`. -/
def patOf (sub : PkgInfo) : List Char :=
  "/npm/".data ++ sub.originalName ++ ['@'] ++ versionStr sub.version ++ "/+esm".data

/-- Secondary-entry-point override record (src/lib/types, `AdditionalModuleLibrary`). -/
structure Override where
  relativePath : List Char
  moduleName : List Char
deriving DecidableEq, Repr

/-- Registry shape: lookup by original package name, empty list when absent
(the `additionalModulePaths[orig] || []` idiom at src/index.ts:221). -/
def Registry := List Char → List Override

/-- The source's static registry (src/index.ts:21-28): `entities` has one
secondary entry point `lib/decode.js/+esm` named `entities_decode`. -/
def additionalModulePaths : Registry := fun orig =>
  if orig = "entities".data then
    [{ relativePath := "lib/decode.js/+esm".data, moduleName := "entities_decode".data }]
  else []

/-- A registry with no secondary entry points (dependency sets with no
overrides are runs under this registry). -/
def emptyRegistry : Registry := fun _ => []

/-- Override reference pattern, as built at src/index.ts:223:
`/npm/${originalName}@${version}/${override.relativePath}`. -/
def ovPatOf (sub : PkgInfo) (ov : Override) : List Char :=
  "/npm/".data ++ sub.originalName ++ ['@'] ++ versionStr sub.version ++ ['/'] ++ ov.relativePath

/-- Does the regex dot of `\/npm\/.+?\/\+esm` match a character?  The
ECMAScript `.` (no `s` flag) matches everything except the four line
terminators LF, CR, LS (U+2028) and PS (U+2029). -/
def dotMatches (c : Char) : Bool :=
  !(c = '\n' || c = '\r' || c = Char.ofNat 8232 || c = Char.ofNat 8233)

/-- Lazy middle of the module-specifier regex `\/npm\/.+?\/\+esm`
(src/index.ts:277): after a `/npm/`, the minimal number `k ≥ 1` of
dot-matched characters such that `/+esm` starts right after them. -/
def lazyMid : List Char → Option Nat
  | [] => none
  | c :: cs =>
    if dotMatches c = false then none
    else if isPreB "/+esm".data cs then some 1
    else (lazyMid cs).map (· + 1)

/-- Fuel-driven scan of `moduleText.matchAll(/\/npm\/.+?\/\+esm/g)`
(src/index.ts:277-278): at each position try to start a lazy match, emit it
and continue after its end, otherwise advance one character. -/
def findUnreplacedGo : Nat → List Char → List (List Char)
  | _, [] => []
  | 0, _ => []
  | Nat.succ f, c :: cs =>
    if isPreB "/npm/".data (c :: cs) then
      match lazyMid ((c :: cs).drop 5) with
      | some k => (c :: cs).take (10 + k) :: findUnreplacedGo f ((c :: cs).drop (10 + k))
      | none => findUnreplacedGo f cs
    else findUnreplacedGo f cs

/-- All matches of the unresolved-reference regex in a module text. -/
def findUnreplaced (t : List Char) : List (List Char) := findUnreplacedGo t.length t

/-- Network fetch contract: raw module text for
`(originalName, version, modulePath?)` — the three fields from which the
request URL is built at src/index.ts:199-202. -/
def Fetch := List Char → Option (List Char) → Option (List Char) → List Char

/-- Mutable run-wide collections threaded through `processModule`
(src/index.ts:183-197) plus the `writeFile` events, in push order.  A
`written` entry records the module name and the final rewritten text saved to
`outputPath/<moduleName>.js`. -/
structure RunState where
  written : List (List Char × List Char)
  loadModuleLines : List (List Char)
  createStatements : List (List Char)
  dropStatements : List (List Char)
  envImports : List (List Char)
  allUnreplacedModules : List (List Char × List (List Char))
deriving DecidableEq, Repr

/-- Empty collections at the start of a run (src/index.ts:295-311). -/
def initState : RunState := ⟨[], [], [], [], [], []⟩

/-- Identity of one `processModule` invocation (src/index.ts:183-197). -/
structure ProcArgs where
  moduleName : List Char
  originalModuleName : List Char
  moduleVersion : Option (List Char)
  modulePath : Option (List Char)
deriving DecidableEq, Repr

/-- The line pushed onto `loadModuleLines` at src/index.ts:253, with
`moduleFilePath = join(outputPath, moduleName + ".js")`. -/
def loadLineOf (jsPath name : List Char) (ver : Option (List Char)) : List Char :=
  "loadModule(\"".data ++ jsPath ++ ['/'] ++ name ++ ".js".data ++ "\", \"".data ++ name
    ++ "\", \"".data ++ versionStr ver ++ "\");".data

/-- The create-module DDL pushed at src/index.ts:257-267. -/
def createStmtOf (tableName name : List Char) (ver : Option (List Char)) : List Char :=
  "create or replace mle module ".data ++ name
    ++ "\nlanguage javascript\nversion '".data ++ versionStr ver
    ++ "'\nusing blob(\n  select module_content\n  from ".data ++ tableName
    ++ "\n  where module_name = '".data ++ name
    ++ "'\n  and module_version = '".data ++ versionStr ver ++ "'\n)\n/".data

/-- The drop-module DDL pushed at src/index.ts:270. -/
def dropStmtOf (name : List Char) : List Char :=
  "drop mle module ".data ++ name ++ [';']

/-- The environment import entry pushed at src/index.ts:273. -/
def importOf (name : List Char) : List Char :=
  [Char.ofNat 39] ++ name ++ "' module ".data ++ name

/-- Finalization of one module (src/index.ts:249-282): record the written
file, push the load line, the create and drop DDL, the environment import,
and, when the rescanned text still matches the module-specifier regex, the
unresolved-reference diagnostic. -/
def finalizeModule (tableName jsPath : List Char) (a : ProcArgs) (text : List Char)
    (st : RunState) : RunState :=
  let st :=
    { st with
      written := st.written ++ [(a.moduleName, text)]
      loadModuleLines := st.loadModuleLines ++ [loadLineOf jsPath a.moduleName a.moduleVersion]
      createStatements := st.createStatements ++ [createStmtOf tableName a.moduleName a.moduleVersion]
      dropStatements := st.dropStatements ++ [dropStmtOf a.moduleName]
      envImports := st.envImports ++ [importOf a.moduleName] }
  let unrep := findUnreplaced text
  if 1 ≤ unrep.length then
    { st with allUnreplacedModules := st.allUnreplacedModules ++ [(a.moduleName, unrep)] }
  else st

/-- One iteration of the override loop (src/index.ts:221-244): replace the
override pattern of this dependency globally; when the text changed, the
override was referenced, so recurse on the secondary entry point (through
`recur`, the fuel-decremented `processModule`) before continuing. -/
def overrideStep (recur : ProcArgs → RunState → Option RunState) (sub : PkgInfo)
    (acc : Option (List Char × RunState)) (ov : Override) :
    Option (List Char × RunState) :=
  match acc with
  | none => none
  | some (text, st) =>
    let newText := replaceAll (ovPatOf sub ov) ov.moduleName text
    if newText ≠ text then
      match recur ⟨ov.moduleName, sub.originalName, sub.version, some ov.relativePath⟩ st with
      | none => none
      | some st' => some (newText, st')
    else some (newText, st)

/-- One iteration of the dependency loop (src/index.ts:209-245): substitute
the plain reference pattern of this dependency globally unless it is the
module itself (comparison by normalized name, line 214), then run the
override loop for this dependency. -/
def depStep (registry : Registry) (recur : ProcArgs → RunState → Option RunState)
    (moduleName : List Char) (acc : Option (List Char × RunState)) (pkgVer : List Char) :
    Option (List Char × RunState) :=
  match acc with
  | none => none
  | some (text, st) =>
    let sub := splitPackageVersion pkgVer
    let text := if sub.name ≠ moduleName then replaceAll (patOf sub) sub.name text else text
    (registry sub.originalName).foldl (overrideStep recur sub) (some (text, st))

/-- src/index.ts:183-283, `processModule`.  Fetch the text, run the
dependency loop (with its nested override loop and depth-first recursion),
then append this module's artifacts.  The recursion is fuel-bounded (`none`
= fuel exhausted; the source recurses without any guard). -/
def processModule (fetch : Fetch) (registry : Registry) (tableName jsPath : List Char)
    (packageList : List (List Char)) : Nat → ProcArgs → RunState → Option RunState
  | 0, _, _ => none
  | Nat.succ f, a, st =>
    let moduleText := fetch a.originalModuleName a.moduleVersion a.modulePath
    match packageList.foldl
        (depStep registry (processModule fetch registry tableName jsPath packageList f)
          a.moduleName)
        (some (moduleText, st)) with
    | none => none
    | some (text, st) => some (finalizeModule tableName jsPath a text st)

/-- One iteration of the top-level loop of `app` (src/index.ts:313-331). -/
def appStep (fetch : Fetch) (registry : Registry) (tableName jsPath : List Char)
    (packageList : List (List Char)) (fuel : Nat) (acc : Option RunState) (pkgVer : List Char) :
    Option RunState :=
  match acc with
  | none => none
  | some st =>
    let packageInfo := splitPackageVersion pkgVer
    processModule fetch registry tableName jsPath packageList fuel
      ⟨packageInfo.name, packageInfo.originalName, packageInfo.version, none⟩ st

/-- The aggregate environment DDL built at src/index.ts:333-336 from the
accumulated import list. -/
def envCreateStmt (rootName : List Char) (imports : List (List Char)) : List Char :=
  "create or replace mle env ".data ++ rootName ++ "_env\nimports (\n  ".data
    ++ List.intercalate ",\n  ".data imports ++ "\n);".data

/-- The environment drop DDL built at src/index.ts:346. -/
def envDropStmt (rootName : List Char) : List Char :=
  "drop mle env ".data ++ rootName ++ "_env;\n".data

/-- src/index.ts:285-359, `app` (the filesystem and script-assembly tail is
out of scope): call `processModule` once per entry of the dependency list in
order, then append the environment create/drop pair.  `allUnreplacedModules`
of the final state is the run-wide diagnostic list reported at lines 341-344;
it is reported (a warning), never fatal. -/
def appRun (fetch : Fetch) (registry : Registry) (tableName jsPath : List Char)
    (fuel : Nat) (packageList : List (List Char)) (rootName : List Char) : Option RunState :=
  match packageList.foldl (appStep fetch registry tableName jsPath packageList fuel)
      (some initState) with
  | none => none
  | some st =>
    some { st with
      createStatements := st.createStatements ++ [envCreateStmt rootName st.envImports]
      dropStatements := st.dropStatements ++ [envDropStmt rootName] }

/-! ### Logger (src/logger.ts) -/

/-- Winston npm logging levels (the priority table the `level` filter uses);
`none` for a string that names no level. -/
def levelPriority : String → Option Nat
  | "error" => some 0
  | "warn" => some 1
  | "info" => some 2
  | "http" => some 3
  | "verbose" => some 4
  | "debug" => some 5
  | "silly" => some 6
  | _ => none

/-- Logger state: the configured level and the transcript of emitted records. -/
structure Logger where
  level : String
  emitted : List (String × String)
deriving DecidableEq, Repr

/-- A `logger.<lvl>(message)` call: the record is emitted iff the message
level's priority does not exceed the configured level's priority. -/
def loggerLog (lvl message : String) (lg : Logger) : Logger :=
  match levelPriority lvl, levelPriority lg.level with
  | some a, some b => if a ≤ b then { lg with emitted := lg.emitted ++ [(lvl, message)] } else lg
  | _, _ => lg

/-- src/logger.ts:27-32, `forcedInfo`: save the configured level, set it to
`info`, log the message at `info`, restore the saved level. -/
def forcedInfo (message : String) (lg : Logger) : Logger :=
  let existingLevel := lg.level
  let lg := { lg with level := "info" }
  let lg := loggerLog "info" message lg
  { lg with level := existingLevel }

/-! ### Derived definitions used by the specification statements -/

/-- The Reference Rewriter's step-1 action on a module text (the plain
substitution part of the dependency loop, src/index.ts:209-217, with no
registered overrides): for each entry of the package list in order, globally
replace its plain reference pattern by its normalized name unless the entry
is the module itself. -/
def rewriteText (packageList : List (List Char)) (moduleName t : List Char) : List Char :=
  packageList.foldl
    (fun text pkgVer =>
      let sub := splitPackageVersion pkgVer
      if sub.name ≠ moduleName then replaceAll (patOf sub) sub.name text else text)
    t

/-- A clean identifier segment: free of the separator characters that the
reference-pattern syntax itself uses (`@`, `/`) and of newline (which the
unresolved-reference regex cannot match).  Actual npm package names and
versions satisfy this. -/
@[reducible] def CleanSeg (s : List Char) : Prop := '@' ∉ s ∧ '/' ∉ s ∧ '\n' ∉ s

/-- Cleanness of a raw dependency token, via the fields the source derives
from it. -/
@[reducible] def CleanTok (pkgVer : List Char) : Prop :=
  CleanSeg (splitPackageVersion pkgVer).originalName ∧
    CleanSeg (versionStr (splitPackageVersion pkgVer).version)

/-- Every character of the segment is matched by the regex dot (no line
terminator): required for the unresolved-reference scan to see a pattern. -/
@[reducible] def DotSafe (s : List Char) : Prop := ∀ c ∈ s, dotMatches c = true

/-- Canonical plain reference pattern from raw components. -/
def mkPat (n v : List Char) : List Char :=
  "/npm/".data ++ n ++ ['@'] ++ v ++ "/+esm".data

/-- A piece of a well-separated module text: either a slash-free text
fragment or a whole canonical reference pattern. -/
inductive Piece where
  | frag (f : List Char)
  | pat (n v : List Char)
deriving DecidableEq, Repr

/-- Text of a piece. -/
def pieceStr : Piece → List Char
  | .frag f => f
  | .pat n v => mkPat n v

/-- Concatenation of the pieces of a well-separated text. -/
def render (ps : List Piece) : List Char := (ps.map pieceStr).flatten

/-- Well-formedness of one piece: a fragment is slash-free, a pattern has
clean components. -/
def pieceWF : Piece → Prop
  | .frag f => '/' ∉ f
  | .pat n v => CleanSeg n ∧ CleanSeg v

/-- Well-formed piece list: every piece is well-formed. -/
def WFpieces (ps : List Piece) : Prop := ∀ pc ∈ ps, pieceWF pc

/-- Well-separated text: some well-formed piece list renders it. -/
def WellSep (t : List Char) : Prop := ∃ ps, WFpieces ps ∧ t = render ps

/-- Piece-level action of one global substitution: a matching pattern piece
becomes a fragment holding the replacement, everything else is unchanged. -/
def substPiece (n v r : List Char) : Piece → Piece
  | .pat n' v' => if n' = n ∧ v' = v then .frag r else .pat n' v'
  | .frag f => .frag f

/-- Piece-level action of one iteration of the dependency loop of
`rewriteText` for module `m`. -/
def stepPiece (m pkgVer : List Char) (pc : Piece) : Piece :=
  let sub := splitPackageVersion pkgVer
  if sub.name ≠ m then substPiece sub.originalName (versionStr sub.version) sub.name pc else pc

/-- Does processing dependency token `pkgVer` inside module `m` substitute
the pattern with components `(n, v)`? -/
def firesOn (m n v : List Char) (pkgVer : List Char) : Bool :=
  let sub := splitPackageVersion pkgVer
  !(sub.name == m) && (sub.originalName == n) && (versionStr sub.version == v)

/-- Final rewritten text of the module processed for entry `e` of a run with
no secondary entry points: the plain-substitution loop applied to the fetched
text (the module path is absent for top-level modules). -/
def moduleTextOf (fetch : Fetch) (l : List (List Char)) (e : List Char) : List Char :=
  rewriteText l (splitPackageVersion e).name
    (fetch (splitPackageVersion e).originalName (splitPackageVersion e).version none)

/-- Unresolved-reference diagnostic contributed by entry `e` of a run with no
secondary entry points, if any. -/
def unrepOf (fetch : Fetch) (l : List (List Char)) (e : List Char) :
    Option (List Char × List (List Char)) :=
  let u := findUnreplaced (moduleTextOf fetch l e)
  if 1 ≤ u.length then some ((splitPackageVersion e).name, u) else none

/-- Closed form of the final run state of `appRun` under `emptyRegistry`:
one artifact of each kind per dependency-list entry, in list order, plus the
environment create/drop pair. -/
def emptyRunResult (fetch : Fetch) (tableName jsPath rootName : List Char)
    (l : List (List Char)) : RunState where
  written := l.map (fun e => ((splitPackageVersion e).name, moduleTextOf fetch l e))
  loadModuleLines :=
    l.map (fun e => loadLineOf jsPath (splitPackageVersion e).name (splitPackageVersion e).version)
  createStatements :=
    (l.map fun e => createStmtOf tableName (splitPackageVersion e).name (splitPackageVersion e).version)
      ++ [envCreateStmt rootName (l.map fun e => importOf (splitPackageVersion e).name)]
  dropStatements :=
    (l.map fun e => dropStmtOf (splitPackageVersion e).name) ++ [envDropStmt rootName]
  envImports := l.map fun e => importOf (splitPackageVersion e).name
  allUnreplacedModules := l.filterMap (unrepOf fetch l)

/-- Normalized database name of a raw name (the global hyphen-to-underscore
regex replace of src/index.ts:35). -/
def underscored (s : List Char) : List Char := s.map (fun c => if c = '-' then '_' else c)

/-- A registry holding exactly the override of the specification's secondary
entry-point scenario: package `baz` exposes `lib/x.js` under the logical name
`baz_x` (same shape as the source's `additionalModulePaths`). -/
def bazOverride : Override := { relativePath := "lib/x.js".data, moduleName := "baz_x".data }

/-- Registry for the secondary entry-point scenario. -/
def bazRegistry : Registry := fun orig =>
  if orig = "baz".data then [bazOverride] else []

/-! ### Theorems -/

theorem isPreB_iff (p t : List Char) : isPreB p t = true ↔ ∃ b, t = p ++ b := by
  induction p generalizing t with
  | nil => simp [isPreB]
  | cons a as ih =>
    cases t with
    | nil => simp [isPreB]
    | cons c cs =>
      simp only [isPreB, Bool.and_eq_true, decide_eq_true_eq, ih, List.cons_append]
      constructor
      · rintro ⟨rfl, b, rfl⟩; exact ⟨b, rfl⟩
      · rintro ⟨b, h⟩
        obtain ⟨rfl, rfl⟩ : a = c ∧ cs = as ++ b := by
          constructor
          · exact (List.cons.injEq .. ▸ h).1.symm
          · exact (List.cons.injEq .. ▸ h).2
        exact ⟨rfl, b, rfl⟩

theorem subStrB_iff (q t : List Char) : subStrB q t = true ↔ SubStr q t := by
  induction t with
  | nil =>
    simp only [subStrB, List.isEmpty_iff, SubStr]
    constructor
    · rintro rfl; exact ⟨[], [], rfl⟩
    · rintro ⟨a, b, h⟩
      rcases List.append_eq_nil.mp ((List.append_assoc a q b) ▸ h.symm) with ⟨rfl, h2⟩
      exact (List.append_eq_nil.mp h2).1
  | cons c cs ih =>
    simp only [subStrB, Bool.or_eq_true, isPreB_iff, ih, SubStr]
    constructor
    · rintro (⟨b, h⟩ | ⟨a, b, h⟩)
      · exact ⟨[], b, by simp [h]⟩
      · exact ⟨c :: a, b, by simp [h]⟩
    · rintro ⟨a, b, h⟩
      cases a with
      | nil => exact Or.inl ⟨b, by simpa using h⟩
      | cons x xs =>
        rw [List.cons_append, List.cons_append] at h
        injection h with h1 h2
        exact Or.inr ⟨xs, b, by simpa [List.append_assoc] using h2⟩

theorem subStrB_false_iff (q t : List Char) : subStrB q t = false ↔ ¬ SubStr q t := by
  rw [← subStrB_iff]
  cases subStrB q t <;> simp

/-! ### Lemmas about the identifier split -/

theorem jsSplit_ne_nil (sep : Char) (t : List Char) : jsSplit sep t ≠ [] := by
  cases t with
  | nil => simp [jsSplit]
  | cons c cs =>
    simp only [jsSplit]
    split
    · simp
    · split <;> simp

theorem jsSplit_head (sep : Char) (t : List Char) :
    (jsSplit sep t).headD [] = t.takeWhile (fun c => c ≠ sep) := by
  induction t with
  | nil => simp [jsSplit]
  | cons c cs ih =>
    simp only [jsSplit, List.takeWhile]
    by_cases h : c = sep
    · simp [h]
    · simp only [if_neg h, h, decide_eq_true_eq]
      rcases hs : jsSplit sep cs with _ | ⟨s, ss⟩
      · exact absurd hs (jsSplit_ne_nil sep cs)
      · simp only [List.headD_cons]
        have := ih
        rw [hs] at this
        simp only [List.headD_cons] at this
        simp [this, h]

theorem jsSplit_of_not_mem (sep : Char) (t : List Char) (h : sep ∉ t) :
    jsSplit sep t = [t] := by
  induction t with
  | nil => rfl
  | cons c cs ih =>
    simp only [List.mem_cons, not_or] at h
    have hcs : ¬ c = sep := fun h' => h.1 h'.symm
    simp only [jsSplit, if_neg hcs, ih h.2]

theorem jsSplit_second (sep : Char) (t : List Char) (h : sep ∈ t) :
    (jsSplit sep t).get? 1 =
      some (((t.dropWhile (fun c => c ≠ sep)).tail).takeWhile (fun c => c ≠ sep)) := by
  induction t with
  | nil => cases h
  | cons c cs ih =>
    by_cases hc : c = sep
    · subst hc
      have hh := jsSplit_head c cs
      rcases hs : jsSplit c cs with _ | ⟨s, ss⟩
      · exact absurd hs (jsSplit_ne_nil c cs)
      · rw [hs] at hh
        simp only [List.headD_cons] at hh
        simp [jsSplit, hs, List.dropWhile, hh]
    · have hmem : sep ∈ cs := by
        rcases List.mem_cons.mp h with h1 | h2
        · exact absurd h1.symm hc
        · exact h2
      rcases hs : jsSplit sep cs with _ | ⟨s, ss⟩
      · exact absurd hs (jsSplit_ne_nil sep cs)
      · have := ih hmem
        rw [hs] at this
        simp only [jsSplit, if_neg hc, hs]
        simp only [List.dropWhile, ne_eq, hc, not_false_eq_true, decide_eq_true_eq]
        simp only [if_neg hc] at *
        simpa using this

/-! ### Claim C6: behaviour on tokens with no version segment -/

/-- Claim C6, counterexample.  The claim states that a raw token with no
version segment (such as `my-lib`) makes the Identifier Normalizer fail with
a `MalformedIdentifierError` rather than return a `PackageVersionIdentifier`.
In the code `splitPackageVersion` has no failure path at all: on `my-lib` it
returns a full record whose `version` field is simply undefined. -/
theorem c6_counterexample :
    splitPackageVersion ("my-lib".data) =
      { originalName := "my-lib".data, name := "my_lib".data, version := none } := by
  decide

/-- Claim C6, amended: on any token with no `@`, `splitPackageVersion` does
not fail; it returns the whole token as the original name, its underscored
form as the database name, and an undefined (`none`) version. -/
theorem c6_amended (t : List Char) (h : '@' ∉ t) :
    splitPackageVersion t = { originalName := t, name := underscored t, version := none } := by
  simp [splitPackageVersion, jsSplit_of_not_mem '@' t h, underscored]

/-- Claim C6, witness for the amended theorem at the concrete token
`my-lib`. -/
theorem c6_witness :
    ('@' ∉ "my-lib".data) ∧
      splitPackageVersion ("my-lib".data) =
        { originalName := "my-lib".data, name := underscored ("my-lib".data), version := none } :=
  ⟨by decide, c6_amended ("my-lib".data) (by decide)⟩

/-! ### Claim C7: the normalization character rule -/

/-- Claim C7, counterexample.  The claim states that every non-alphanumeric
character of the name is replaced by `_`.  The code only replaces hyphens:
the name of `my.lib@1.0.0` keeps its dot (`my.lib`, not `my_lib`), and `.`
is not alphanumeric. -/
theorem c7_counterexample :
    (splitPackageVersion ("my.lib@1.0.0".data)).name = "my.lib".data ∧
      '.' ∈ (splitPackageVersion ("my.lib@1.0.0".data)).name ∧
      '.'.isAlphanum = false ∧ '.' ≠ '_' := by
  decide

/-- Claim C7, amended: the normalized name is obtained by replacing every
hyphen (only hyphens, not every non-alphanumeric character) of the original
name with an underscore; this is a pure function of the original name, and
`my-lib@1.2.3` does normalize to `my_lib`. -/
theorem c7_amended (pkgVer : List Char) :
    (splitPackageVersion pkgVer).name = underscored (splitPackageVersion pkgVer).originalName ∧
      (splitPackageVersion ("my-lib@1.2.3".data)).name = "my_lib".data :=
  ⟨rfl, by decide⟩

/-! ### Claim C8: which `@` the split uses -/

/-- Claim C8, counterexample.  The claim states the token is split on the
last `@`, so `a@b@c` would give original name `a@b` and version `c`.  The
code indexes components 0 and 1 of `split("@")`: original name `a`, version
`b`. -/
theorem c8_counterexample :
    (splitPackageVersion ("a@b@c".data)).originalName = "a".data ∧
      (splitPackageVersion ("a@b@c".data)).version = some ("b".data) ∧
      (splitPackageVersion ("a@b@c".data)).originalName ≠ "a@b".data := by
  decide

/-- Claim C8, amended: for every token containing `@`, the split is on the
first `@`: the original name is everything before the first `@`, and the
version is the segment between the first and second `@`. -/
theorem c8_amended (t : List Char) (h : '@' ∈ t) :
    (splitPackageVersion t).originalName = t.takeWhile (fun c => c ≠ '@') ∧
      (splitPackageVersion t).version =
        some (((t.dropWhile (fun c => c ≠ '@')).tail).takeWhile (fun c => c ≠ '@')) := by
  constructor
  · show (jsSplit '@' t).headD [] = _
    exact jsSplit_head '@' t
  · show (jsSplit '@' t).get? 1 = _
    exact jsSplit_second '@' t h

/-- Claim C8, witness for the amended theorem at the concrete token
`a@b@c`. -/
theorem c8_witness :
    ('@' ∈ "a@b@c".data) ∧
      ((splitPackageVersion ("a@b@c".data)).originalName =
          ("a@b@c".data).takeWhile (fun c => c ≠ '@') ∧
        (splitPackageVersion ("a@b@c".data)).version =
          some (((("a@b@c".data).dropWhile (fun c => c ≠ '@')).tail).takeWhile (fun c => c ≠ '@'))) :=
  ⟨by decide, c8_amended ("a@b@c".data) (by decide)⟩

/-! ### Claim C10: `forcedInfo` logs and restores the level -/

/-- Claim C10, confirmed: for every configured level and message,
`forcedInfo` emits the message as an `info` record (regardless of the
configured level) and afterwards the configured level is exactly what it was
before; no other logger state is touched. -/
theorem c10_forcedInfo_frame (lg : Logger) (message : String) :
    (forcedInfo message lg).level = lg.level ∧
      (forcedInfo message lg).emitted = lg.emitted ++ [("info", message)] := by
  constructor <;> simp [forcedInfo, loggerLog, levelPriority]

/-! ### Basic lemmas about `replaceAll`, its plain form and substring occurrence -/

theorem isPreB_length_le (p t : List Char) (h : isPreB p t = true) : p.length ≤ t.length := by
  obtain ⟨b, rfl⟩ := (isPreB_iff p t).mp h
  simp

theorem isPreB_self_append (p y : List Char) : isPreB p (p ++ y) = true :=
  (isPreB_iff p (p ++ y)).mpr ⟨y, rfl⟩

theorem SubStr.of_isPreB (p t : List Char) (h : isPreB p t = true) : SubStr p t := by
  obtain ⟨b, rfl⟩ := (isPreB_iff p t).mp h
  exact ⟨[], b, rfl⟩

theorem SubStr.cons (q : List Char) (c : Char) (cs : List Char) (h : SubStr q cs) :
    SubStr q (c :: cs) := by
  obtain ⟨a, b, rfl⟩ := h
  exact ⟨c :: a, b, rfl⟩

theorem SubStr.append_right (q x t : List Char) (h : SubStr q t) : SubStr q (x ++ t) := by
  obtain ⟨a, b, rfl⟩ := h
  exact ⟨x ++ a, b, by simp⟩

theorem SubStr.append_left (q t x : List Char) (h : SubStr q t) : SubStr q (t ++ x) := by
  obtain ⟨a, b, rfl⟩ := h
  exact ⟨a, b ++ x, by simp⟩

theorem SubStr.self (q : List Char) : SubStr q q := ⟨[], [], by simp⟩

theorem SubStr.nil_elim (q : List Char) (h : SubStr q []) : q = [] := by
  obtain ⟨a, b, hab⟩ := h
  have := congrArg List.length hab
  simp at this
  exact List.eq_nil_of_length_eq_zero (by omega)

theorem SubStr.of_cons_not_pre (p : List Char) (c : Char) (cs : List Char)
    (h : SubStr p (c :: cs)) (hp : isPreB p (c :: cs) = false) : SubStr p cs := by
  obtain ⟨a, b, hab⟩ := h
  cases a with
  | nil =>
    exfalso
    have : isPreB p (c :: cs) = true := by
      simp only [List.nil_append] at hab
      exact (isPreB_iff p (c :: cs)).mpr ⟨b, hab⟩
    rw [this] at hp; cases hp
  | cons x xs =>
    rw [List.cons_append, List.cons_append] at hab
    injection hab with h1 h2
    exact ⟨xs, b, by simpa [List.append_assoc] using h2⟩

theorem replaceAllPlainGo_fuel (p r : List Char) (f f' : Nat) (t : List Char)
    (h : t.length ≤ f) (h' : t.length ≤ f') :
    replaceAllPlainGo p r f t = replaceAllPlainGo p r f' t := by
  induction f generalizing f' t with
  | zero =>
    have : t = [] := List.eq_nil_of_length_eq_zero (by omega)
    subst this
    cases f' <;> rfl
  | succ f ih =>
    cases t with
    | nil => cases f' <;> rfl
    | cons c cs =>
      cases f' with
      | zero => simp at h'
      | succ f' =>
        simp only [replaceAllPlainGo]
        split
        · rename_i hcond
          have hp : 1 ≤ p.length := by
            cases hq : p with
            | nil => exact absurd hq hcond.1
            | cons _ _ => simp
          have hlen : ((c :: cs).drop p.length).length ≤ f := by
            simp only [List.length_drop, List.length_cons] at *
            omega
          have hlen' : ((c :: cs).drop p.length).length ≤ f' := by
            simp only [List.length_drop, List.length_cons] at *
            omega
          rw [ih f' _ hlen hlen']
        · have hlen : cs.length ≤ f := by simp at h; omega
          have hlen' : cs.length ≤ f' := by simp at h'; omega
          rw [ih f' _ hlen hlen']

theorem replaceAllPlain_nil (p r : List Char) : replaceAllPlain p r [] = [] := rfl

theorem replaceAllPlain_cons (p r : List Char) (c : Char) (cs : List Char) :
    replaceAllPlain p r (c :: cs) =
      if p ≠ [] ∧ isPreB p (c :: cs) = true then
        r ++ replaceAllPlain p r ((c :: cs).drop p.length)
      else c :: replaceAllPlain p r cs := by
  show replaceAllPlainGo p r (c :: cs).length (c :: cs) = _
  simp only [List.length_cons, replaceAllPlainGo]
  split
  · rename_i hcond
    have hp : 1 ≤ p.length := by
      cases hq : p with
      | nil => exact absurd hq hcond.1
      | cons _ _ => simp
    rw [replaceAllPlainGo_fuel p r cs.length ((c :: cs).drop p.length).length]
    · rfl
    · simp only [List.length_drop, List.length_cons]; omega
    · rfl
  · rfl

theorem replaceAllPlain_of_not_substr (p r t : List Char) (h : ¬ SubStr p t) :
    replaceAllPlain p r t = t := by
  induction t with
  | nil => rfl
  | cons c cs ih =>
    rw [replaceAllPlain_cons]
    split
    · rename_i hcond
      exact absurd (SubStr.of_isPreB p (c :: cs) hcond.2) h
    · rw [ih (fun hs => h (SubStr.cons p c cs hs))]

theorem replaceAllPlain_append_left (p r x y : List Char)
    (h : ∀ i, i < x.length → isPreB p (x.drop i ++ y) = false) :
    replaceAllPlain p r (x ++ y) = x ++ replaceAllPlain p r y := by
  induction x with
  | nil => rfl
  | cons c cs ih =>
    rw [List.cons_append, replaceAllPlain_cons]
    have h0 : isPreB p (c :: (cs ++ y)) = false := by
      have := h 0 (by simp)
      simpa using this
    rw [if_neg]
    · rw [ih (fun i hi => by
        have := h (i + 1) (by simp; omega)
        simpa using this)]
      simp
    · rintro ⟨-, hpre⟩
      rw [h0] at hpre; cases hpre

theorem replaceAllPlain_head_match (p r y : List Char) (hp : p ≠ []) :
    replaceAllPlain p r (p ++ y) = r ++ replaceAllPlain p r y := by
  cases hq : p with
  | nil => exact absurd hq hp
  | cons c cs =>
    rw [← hq, hq, List.cons_append, replaceAllPlain_cons, ← List.cons_append, ← hq,
      if_pos ⟨hp, isPreB_self_append p y⟩]
    congr 1
    rw [List.drop_left]

theorem replaceAllPlainGo_length_le (p r : List Char) (hr : r.length ≤ p.length) (f : Nat)
    (t : List Char) (h : t.length ≤ f) : (replaceAllPlainGo p r f t).length ≤ t.length := by
  induction f generalizing t with
  | zero =>
    have : t = [] := List.eq_nil_of_length_eq_zero (by omega)
    subst this; simp [replaceAllPlainGo]
  | succ f ih =>
    cases t with
    | nil => simp [replaceAllPlainGo]
    | cons c cs =>
      simp only [replaceAllPlainGo]
      split
      · rename_i hcond
        have hple : p.length ≤ (c :: cs).length := isPreB_length_le p (c :: cs) hcond.2
        have hp : 1 ≤ p.length := by
          cases hq : p with
          | nil => exact absurd hq hcond.1
          | cons _ _ => simp
        have hrec := ih ((c :: cs).drop p.length) (by
          simp only [List.length_drop, List.length_cons] at *; omega)
        simp only [List.length_append, List.length_drop, List.length_cons] at *
        omega
      · have hrec := ih cs (by simp at h; omega)
        simp only [List.length_cons]
        omega

theorem replaceAllPlain_length_le (p r : List Char) (hr : r.length ≤ p.length) (t : List Char) :
    (replaceAllPlain p r t).length ≤ t.length :=
  replaceAllPlainGo_length_le p r hr t.length t le_rfl

theorem replaceAllPlain_length_lt (p r t : List Char) (hs : SubStr p t) (hr : r.length < p.length) :
    (replaceAllPlain p r t).length < t.length := by
  induction t with
  | nil =>
    have := SubStr.nil_elim p hs
    subst this; simp at hr
  | cons c cs ih =>
    rw [replaceAllPlain_cons]
    split
    · rename_i hcond
      have hple : p.length ≤ (c :: cs).length := isPreB_length_le p (c :: cs) hcond.2
      have hrec := replaceAllPlain_length_le p r (by omega) ((c :: cs).drop p.length)
      simp only [List.length_append, List.length_drop, List.length_cons] at *
      omega
    · rename_i hcond
      have hp : p ≠ [] := by
        rintro rfl
        simp at hr
      have hpre : isPreB p (c :: cs) = false := by
        cases hb : isPreB p (c :: cs) with
        | false => rfl
        | true => exact absurd ⟨hp, hb⟩ hcond
      have := ih (SubStr.of_cons_not_pre p c cs hs hpre)
      simp only [List.length_cons]
      omega

theorem replaceAllPlainGo_length_ge (p r : List Char) (hr : p.length ≤ r.length) (f : Nat)
    (t : List Char) (h : t.length ≤ f) : t.length ≤ (replaceAllPlainGo p r f t).length := by
  induction f generalizing t with
  | zero =>
    have : t = [] := List.eq_nil_of_length_eq_zero (by omega)
    subst this; simp [replaceAllPlainGo]
  | succ f ih =>
    cases t with
    | nil => simp [replaceAllPlainGo]
    | cons c cs =>
      simp only [replaceAllPlainGo]
      split
      · rename_i hcond
        have hple : p.length ≤ (c :: cs).length := isPreB_length_le p (c :: cs) hcond.2
        have hp : 1 ≤ p.length := by
          cases hq : p with
          | nil => exact absurd hq hcond.1
          | cons _ _ => simp
        have hrec := ih ((c :: cs).drop p.length) (by
          simp only [List.length_drop, List.length_cons] at *; omega)
        simp only [List.length_append, List.length_drop, List.length_cons] at *
        omega
      · have hrec := ih cs (by simp at h; omega)
        simp only [List.length_cons]
        omega

theorem replaceAllPlain_length_gt (p r t : List Char) (hp : p ≠ []) (hs : SubStr p t)
    (hr : p.length < r.length) : t.length < (replaceAllPlain p r t).length := by
  induction t with
  | nil => exact absurd (SubStr.nil_elim p hs) hp
  | cons c cs ih =>
    rw [replaceAllPlain_cons]
    split
    · rename_i hcond
      have hple : p.length <= (c :: cs).length := isPreB_length_le p (c :: cs) hcond.2
      have hp1 : 1 <= p.length := by
        cases hq : p with
        | nil => exact absurd hq hp
        | cons _ _ => simp
      have hrec : ((c :: cs).drop p.length).length <=
          (replaceAllPlain p r ((c :: cs).drop p.length)).length :=
        replaceAllPlainGo_length_ge p r (by omega) ((c :: cs).drop p.length).length
          ((c :: cs).drop p.length) le_rfl
      simp only [List.length_append, List.length_drop, List.length_cons] at *
      omega
    · rename_i hcond
      have hpre : isPreB p (c :: cs) = false := by
        cases hb : isPreB p (c :: cs) with
        | false => rfl
        | true => exact absurd (And.intro hp hb) hcond
      have := ih (SubStr.of_cons_not_pre p c cs hs hpre)
      simp only [List.length_cons]
      omega

theorem replaceAllPlain_ne_of_substr (p r t : List Char) (hp : p ≠ []) (hs : SubStr p t)
    (hne : r ≠ p) : replaceAllPlain p r t ≠ t := by
  rcases Nat.lt_trichotomy r.length p.length with hlt | heq | hgt
  · intro h
    have := replaceAllPlain_length_lt p r t hs hlt
    rw [h] at this
    omega
  · induction t with
    | nil => exact absurd (SubStr.nil_elim p hs) hp
    | cons c cs ih =>
      rw [replaceAllPlain_cons]
      split
      · rename_i hcond
        obtain ⟨b, hb⟩ := (isPreB_iff p (c :: cs)).mp hcond.2
        intro hcontra
        rw [hb] at hcontra
        rw [List.drop_left' rfl] at hcontra
        exact hne (List.append_inj hcontra heq).1
      · rename_i hcond
        have hpre : isPreB p (c :: cs) = false := by
          cases hb : isPreB p (c :: cs) with
          | false => rfl
          | true => exact absurd (And.intro hp hb) hcond
        have := ih (SubStr.of_cons_not_pre p c cs hs hpre)
        intro hcontra
        injection hcontra with h1 h2
        exact this h2
  · intro h
    have := replaceAllPlain_length_gt p r t hp hs hgt
    rw [h] at this
    omega

/-- A replacement free of `$` is its own substitution expansion. -/
theorem getSubstitution_no_dollar (m b a : List Char) :
    ∀ r : List Char, '$' ∉ r → getSubstitution m b a r = r := by
  intro r
  induction r with
  | nil => intro _; rfl
  | cons c rest ih =>
    intro h
    cases rest with
    | nil => rfl
    | cons d rest2 =>
      have hc : ¬ c = '$' := fun hc => h (hc ▸ List.mem_cons_self c (d :: rest2))
      show (if c = '$' then _ else c :: getSubstitution m b a (d :: rest2)) = _
      rw [if_neg hc, ih (fun hm => h (List.mem_cons_of_mem c hm))]

/-- On a `$`-free replacement the scanning core of `replaceAll` coincides
with plain substitution, whatever prefix of the original string has been
consumed. -/
theorem replaceAllGo_plain (p r : List Char) (h : '$' ∉ r) :
    ∀ (f : Nat) (done t : List Char),
      replaceAllGo p r f done t = replaceAllPlainGo p r f t := by
  intro f
  induction f with
  | zero => intro done t; cases t <;> rfl
  | succ f ih =>
    intro done t
    cases t with
    | nil => rfl
    | cons c cs =>
      show (if p ≠ [] ∧ isPreB p (c :: cs) = true then
          getSubstitution p done ((c :: cs).drop p.length) r
            ++ replaceAllGo p r f (done ++ p) ((c :: cs).drop p.length)
        else c :: replaceAllGo p r f (done ++ [c]) cs) = _
      rw [show replaceAllPlainGo p r (Nat.succ f) (c :: cs) =
        if p ≠ [] ∧ isPreB p (c :: cs) = true then
          r ++ replaceAllPlainGo p r f ((c :: cs).drop p.length)
        else c :: replaceAllPlainGo p r f cs from rfl]
      split
      · rw [getSubstitution_no_dollar _ _ _ r h, ih]
      · rw [ih]

/-- `replaceAll` with a `$`-free replacement is plain substitution. -/
theorem replaceAll_eq_plain (p r t : List Char) (h : '$' ∉ r) :
    replaceAll p r t = replaceAllPlain p r t :=
  replaceAllGo_plain p r h t.length [] t

/-- When the pattern does not occur, the scan leaves the text unchanged (for
any replacement, `$`-bearing or not). -/
theorem replaceAllGo_no_match (p r : List Char) :
    ∀ (f : Nat) (done t : List Char), ¬ SubStr p t → replaceAllGo p r f done t = t := by
  intro f
  induction f with
  | zero => intro done t _; cases t <;> rfl
  | succ f ih =>
    intro done t h
    cases t with
    | nil => rfl
    | cons c cs =>
      show (if p ≠ [] ∧ isPreB p (c :: cs) = true then _
        else c :: replaceAllGo p r f (done ++ [c]) cs) = _
      have hcond : ¬ (p ≠ [] ∧ isPreB p (c :: cs) = true) := by
        rintro ⟨-, hpre⟩
        exact h (SubStr.of_isPreB p (c :: cs) hpre)
      rw [if_neg hcond, ih (done ++ [c]) cs (fun hs => h (SubStr.cons p c cs hs))]

/-- `replaceAll` leaves a text without occurrences of the pattern unchanged. -/
theorem replaceAll_of_not_substr (p r t : List Char) (h : ¬ SubStr p t) :
    replaceAll p r t = t :=
  replaceAllGo_no_match p r t.length [] t h

/-! ### Character combinatorics of the canonical reference pattern -/

theorem uniqueSplitChar (c : Char) (u1 u2 w1 w2 : List Char) (h1 : c ∉ u1) (h2 : c ∉ u2)
    (h : u1 ++ c :: w1 = u2 ++ c :: w2) : u1 = u2 ∧ w1 = w2 := by
  induction u1 generalizing u2 with
  | nil =>
    cases u2 with
    | nil => simpa using h
    | cons y u2' =>
      simp only [List.nil_append, List.cons_append] at h
      injection h with hy hrest
      exact absurd (hy ▸ List.mem_cons_self y u2') h2
  | cons x u1' ih =>
    cases u2 with
    | nil =>
      simp only [List.cons_append, List.nil_append] at h
      injection h with hy hrest
      exact absurd (hy.symm ▸ List.mem_cons_self x u1') h1
    | cons y u2' =>
      simp only [List.cons_append] at h
      injection h with hy hrest
      subst hy
      have h1' : c ∉ u1' := fun hm => h1 (List.mem_cons_of_mem x hm)
      have h2' : c ∉ u2' := fun hm => h2 (List.mem_cons_of_mem x hm)
      obtain ⟨he, hw⟩ := ih u2' h1' h2' hrest
      exact ⟨by rw [he], hw⟩

theorem chunksTwo (c : Char) (u rest a w : List Char) (hu : c ∉ u)
    (h : u ++ c :: rest = a ++ c :: w) :
    (a = u ∧ w = rest) ∨ ∃ a', a = u ++ c :: a' ∧ rest = a' ++ c :: w := by
  induction u generalizing a with
  | nil =>
    cases a with
    | nil => simp only [List.nil_append] at h; injection h with _ h2; exact Or.inl ⟨rfl, h2.symm⟩
    | cons x a' =>
      simp only [List.nil_append, List.cons_append] at h
      injection h with hx hrest
      subst hx
      exact Or.inr ⟨a', by simp, hrest⟩
  | cons y u' ih =>
    cases a with
    | nil =>
      simp only [List.cons_append, List.nil_append] at h
      injection h with hy hrest
      exact absurd (hy.symm ▸ List.mem_cons_self y u') hu
    | cons x a' =>
      simp only [List.cons_append] at h
      injection h with hx hrest
      subst hx
      have hu' : c ∉ u' := fun hm => hu (List.mem_cons_of_mem y hm)
      rcases ih a' hu' hrest with ⟨ha, hw⟩ | ⟨a2, ha, hr⟩
      · exact Or.inl ⟨by rw [ha], hw⟩
      · exact Or.inr ⟨a2, by rw [ha]; simp, hr⟩

theorem chunksThree (c : Char) (u1 u2 u3 a w : List Char) (h1 : c ∉ u1) (h2 : c ∉ u2)
    (h3 : c ∉ u3) (h : c :: u1 ++ c :: u2 ++ c :: u3 = a ++ c :: w) :
    (a = [] ∧ w = u1 ++ c :: u2 ++ c :: u3) ∨
      (a = c :: u1 ∧ w = u2 ++ c :: u3) ∨
      (a = c :: u1 ++ c :: u2 ∧ w = u3) := by
  cases a with
  | nil =>
    simp only [List.nil_append, List.cons_append] at h
    injection h with _ hrest0
    exact Or.inl ⟨rfl, hrest0.symm⟩
  | cons x a' =>
    simp only [List.cons_append] at h
    injection h with hx hrest
    subst hx
    have hrest' : u1 ++ c :: (u2 ++ c :: u3) = a' ++ c :: w := by
      simpa [List.append_assoc] using hrest
    rcases chunksTwo c u1 (u2 ++ c :: u3) a' w h1 hrest' with ⟨ha, hw⟩ | ⟨a2, ha, hr⟩
    · exact Or.inr (Or.inl ⟨by rw [ha], hw⟩)
    · rcases chunksTwo c u2 u3 a2 w h2 hr with ⟨ha2, hw2⟩ | ⟨a3, ha3, hr3⟩
      · refine Or.inr (Or.inr ⟨?_, hw2⟩)
        rw [ha, ha2]
        simp
      · exact absurd (hr3 ▸ List.mem_append_right a3 (List.mem_cons_self c w)) h3

theorem mkPat_split_at (n v : List Char) :
    mkPat n v = ("/npm/".data ++ n) ++ '@' :: (v ++ "/+esm".data) := by
  simp [mkPat, List.append_assoc]

theorem mkPat_chunks (n v : List Char) :
    mkPat n v = '/' :: "npm".data ++ '/' :: (n ++ '@' :: v) ++ '/' :: "+esm".data := by
  have h1 : "/npm/".data = '/' :: 'n' :: 'p' :: 'm' :: '/' :: [] := rfl
  have h2 : "/+esm".data = '/' :: '+' :: 'e' :: 's' :: 'm' :: [] := rfl
  have h3 : "npm".data = 'n' :: 'p' :: 'm' :: [] := rfl
  have h4 : "+esm".data = '+' :: 'e' :: 's' :: 'm' :: [] := rfl
  simp [mkPat, h1, h2, h3, h4, List.append_assoc]

theorem mkPat_ne_nil (n v : List Char) : mkPat n v ≠ [] := by
  rw [mkPat_chunks]
  simp

theorem count_at_mkPat (n v : List Char) (hn : '@' ∉ n) (hv : '@' ∉ v) :
    List.count '@' (mkPat n v) = 1 := by
  rw [mkPat_split_at]
  simp only [List.count_append, List.count_cons]
  rw [List.count_eq_zero.mpr hn, List.count_eq_zero.mpr hv]
  decide

theorem pat_in_pat (n1 v1 n2 v2 a b : List Char)
    (c1 : CleanSeg n1) (c2 : CleanSeg v1) (c3 : CleanSeg n2) (c4 : CleanSeg v2)
    (h : mkPat n1 v1 = a ++ mkPat n2 v2 ++ b) :
    a = [] ∧ b = [] ∧ n1 = n2 ∧ v1 = v2 := by
  obtain ⟨h1n, h1ns, -⟩ := c1
  obtain ⟨h1v, h1vs, -⟩ := c2
  obtain ⟨h2n, h2ns, -⟩ := c3
  obtain ⟨h2v, h2vs, -⟩ := c4
  have hcnt := congrArg (List.count '@') h
  rw [count_at_mkPat n1 v1 h1n h1v] at hcnt
  rw [List.count_append, List.count_append, count_at_mkPat n2 v2 h2n h2v] at hcnt
  have hca : List.count '@' a = 0 := by omega
  have hcb : List.count '@' b = 0 := by omega
  have ha : '@' ∉ a := List.count_eq_zero.mp hca
  have hb : '@' ∉ b := List.count_eq_zero.mp hcb
  rw [mkPat_split_at, mkPat_split_at] at h
  have h' : ("/npm/".data ++ n1) ++ '@' :: (v1 ++ "/+esm".data) =
      (a ++ ("/npm/".data ++ n2)) ++ '@' :: (v2 ++ ("/+esm".data ++ b)) := by
    rw [h]; simp [List.append_assoc]
  have hnotmem1 : '@' ∉ "/npm/".data ++ n1 := by
    simp only [List.mem_append]; rintro (hx | hx)
    · revert hx; decide
    · exact h1n hx
  have hnotmem2 : '@' ∉ a ++ ("/npm/".data ++ n2) := by
    simp only [List.mem_append]; rintro (hx | hx | hx)
    · exact ha hx
    · revert hx; decide
    · exact h2n hx
  obtain ⟨e1, e2⟩ := uniqueSplitChar '@' _ _ _ _ hnotmem1 hnotmem2 h'
  have hesm : "/+esm".data = '/' :: "+esm".data := rfl
  have e2' : v1 ++ '/' :: "+esm".data = v2 ++ '/' :: ("+esm".data ++ b) := by
    rw [← hesm]
    rw [e2]; simp [hesm, List.append_assoc]
  obtain ⟨ev, etail⟩ := uniqueSplitChar '/' _ _ _ _ h1vs h2vs e2'
  have hbnil : b = [] := by
    have := congrArg List.length etail
    simp at this
    exact this
  have e1' : n1.reverse ++ '/' :: ('m' :: 'p' :: 'n' :: '/' :: []) =
      n2.reverse ++ '/' :: (('m' :: 'p' :: 'n' :: '/' :: []) ++ a.reverse) := by
    have hrev := congrArg List.reverse e1
    rw [List.reverse_append, List.reverse_append, List.reverse_append] at hrev
    have hnpmrev : ("/npm/".data).reverse = '/' :: 'm' :: 'p' :: 'n' :: '/' :: [] := rfl
    rw [hnpmrev] at hrev
    simpa [List.append_assoc] using hrev
  have hnrev1 : '/' ∉ n1.reverse := by rw [List.mem_reverse]; exact h1ns
  have hnrev2 : '/' ∉ n2.reverse := by rw [List.mem_reverse]; exact h2ns
  obtain ⟨en, etail2⟩ := uniqueSplitChar '/' _ _ _ _ hnrev1 hnrev2 e1'
  have hanil : a = [] := by
    have := congrArg List.length etail2
    simp at this
    exact List.eq_nil_of_length_eq_zero (by simpa using this)
  refine ⟨hanil, hbnil, List.reverse_injective en, ev⟩

theorem mem_mid_not_slash (n v : List Char) (hn : '/' ∉ n) (hv : '/' ∉ v) :
    '/' ∉ n ++ '@' :: v := by
  simp only [List.mem_append, List.mem_cons]
  rintro (hx | hx | hx)
  · exact hn hx
  · exact absurd hx (by decide)
  · exact hv hx

theorem pat_straddle (n1 v1 n2 v2 a s t2 : List Char)
    (c1 : CleanSeg n1) (c2 : CleanSeg v1) (c3 : CleanSeg n2) (c4 : CleanSeg v2)
    (hp : mkPat n1 v1 = a ++ s) (hs : s ≠ []) (hq : mkPat n2 v2 = s ++ t2) (ht : t2 ≠ []) :
    False := by
  obtain ⟨h1at, h1sl, -⟩ := id c1
  obtain ⟨h1vt, h1vl, -⟩ := id c2
  obtain ⟨h2at, h2sl, -⟩ := id c3
  obtain ⟨h2vt, h2vl, -⟩ := id c4
  cases s with
  | nil => exact hs rfl
  | cons x w =>
    have hx : x = '/' := by
      rw [mkPat_chunks] at hq
      simp only [List.cons_append] at hq
      injection hq with hx _
      exact hx.symm
    subst hx
    rw [mkPat_chunks] at hp
    have hnpm : '/' ∉ "npm".data := by decide
    have hesm : '/' ∉ "+esm".data := by decide
    have hmid1 : '/' ∉ n1 ++ '@' :: v1 := mem_mid_not_slash n1 v1 h1sl h1vl
    rcases chunksThree '/' ("npm".data) (n1 ++ '@' :: v1) ("+esm".data) a w hnpm hmid1 hesm hp
      with ⟨ha, hw⟩ | ⟨ha, hw⟩ | ⟨ha, hw⟩
    · subst ha
      have hsfull : ('/' : Char) :: w = mkPat n1 v1 := by
        rw [mkPat_chunks, hw]
        simp
      rw [hsfull] at hq
      have := pat_in_pat n2 v2 n1 v1 [] t2 c3 c4 c1 c2 (by rw [hq]; simp)
      exact ht this.2.1
    · subst hw
      rw [mkPat_chunks] at hq
      simp only [List.cons_append] at hq
      injection hq with _ htail
      have htail' : "npm".data ++ '/' :: ((n2 ++ '@' :: v2) ++ '/' :: "+esm".data) =
          (n1 ++ '@' :: v1) ++ '/' :: ("+esm".data ++ t2) := by
        simpa [List.append_assoc] using htail
      have hmid2 : '/' ∉ n2 ++ '@' :: v2 := mem_mid_not_slash n2 v2 h2sl h2vl
      obtain ⟨heq, -⟩ := uniqueSplitChar '/' _ _ _ _ hnpm hmid1 htail'
      have : '@' ∈ "npm".data := by
        rw [heq]
        exact List.mem_append_right n1 (List.mem_cons_self '@' v1)
      revert this; decide
    · subst hw
      have h2 := congrArg (List.take 2) hq
      have e1 : List.take 2 (mkPat n2 v2) = ['/', 'n'] := rfl
      have e2 : List.take 2 ('/' :: "+esm".data ++ t2) = ['/', '+'] := rfl
      rw [e1, e2] at h2
      exact absurd h2 (by decide)

theorem pat_pre (n1 v1 n2 v2 y : List Char)
    (c1 : CleanSeg n1) (c2 : CleanSeg v1) (c3 : CleanSeg n2) (c4 : CleanSeg v2)
    (h : isPreB (mkPat n1 v1) (mkPat n2 v2 ++ y) = true) : n1 = n2 ∧ v1 = v2 := by
  obtain ⟨b, hb⟩ := (isPreB_iff _ _).mp h
  rcases List.append_eq_append_iff.mp hb with ⟨a', ha1, -⟩ | ⟨c', hc1, -⟩
  · have := pat_in_pat n1 v1 n2 v2 [] a' c1 c2 c3 c4 (by rw [ha1]; simp)
    exact ⟨this.2.2.1, this.2.2.2⟩
  · have := pat_in_pat n2 v2 n1 v1 [] c' c3 c4 c1 c2 (by rw [hc1]; simp)
    exact ⟨this.2.2.1.symm, this.2.2.2.symm⟩

theorem pat_no_inner_start (n1 v1 n2 v2 a s y : List Char)
    (c1 : CleanSeg n1) (c2 : CleanSeg v1) (c3 : CleanSeg n2) (c4 : CleanSeg v2)
    (hdecomp : mkPat n2 v2 = a ++ s) (hs : s ≠ []) (ha : a ≠ []) :
    isPreB (mkPat n1 v1) (s ++ y) = false := by
  cases hpre : isPreB (mkPat n1 v1) (s ++ y) with
  | false => rfl
  | true =>
    exfalso
    obtain ⟨b, hb⟩ := (isPreB_iff _ _).mp hpre
    rcases List.append_eq_append_iff.mp hb with ⟨a', ha1, -⟩ | ⟨c', hc1, -⟩
    · cases ha' : a' with
      | nil =>
        rw [ha'] at ha1
        simp only [List.append_nil] at ha1
        have := pat_in_pat n2 v2 n1 v1 a [] c3 c4 c1 c2 (by rw [hdecomp, ha1]; simp)
        exact ha this.1
      | cons z zs =>
        exact pat_straddle n2 v2 n1 v1 a s a' c3 c4 c1 c2 hdecomp hs ha1 (by rw [ha']; simp)
    · have := pat_in_pat n2 v2 n1 v1 a c' c3 c4 c1 c2
        (by rw [hdecomp, hc1]; simp [List.append_assoc])
      exact ha this.1

/-- Occurrences of a clean canonical pattern survive the global replacement
of a different clean canonical pattern: distinct clean patterns can never
overlap in a text, so the replaced spans are disjoint from the occurrence. -/
theorem substr_preserved_go (n1 v1 n2 v2 r : List Char)
    (c1 : CleanSeg n1) (c2 : CleanSeg v1) (c3 : CleanSeg n2) (c4 : CleanSeg v2)
    (hne : mkPat n1 v1 ≠ mkPat n2 v2) :
    ∀ (N : Nat) (t : List Char), t.length ≤ N → SubStr (mkPat n2 v2) t →
      SubStr (mkPat n2 v2) (replaceAllPlain (mkPat n1 v1) r t) := by
  intro N
  induction N with
  | zero =>
    intro t hlen hs
    have : t = [] := List.eq_nil_of_length_eq_zero (by omega)
    subst this
    exact absurd (SubStr.nil_elim _ hs) (mkPat_ne_nil n2 v2)
  | succ N ih =>
    intro t hlen hs
    cases t with
    | nil => exact absurd (SubStr.nil_elim _ hs) (mkPat_ne_nil n2 v2)
    | cons c cs =>
      rw [replaceAllPlain_cons]
      split
      · rename_i hcond
        obtain ⟨b, hb⟩ := (isPreB_iff _ _).mp hcond.2
        have hdrop : (c :: cs).drop (mkPat n1 v1).length = b := by
          rw [hb, List.drop_left' rfl]
        rw [hdrop]
        obtain ⟨a, b2, hocc⟩ := hs
        have hsplit : mkPat n1 v1 ++ b = a ++ (mkPat n2 v2 ++ b2) := by
          rw [← hb, hocc, List.append_assoc]
        have hblen : b.length ≤ N := by
          have := congrArg List.length hb
          have hp1 : 1 ≤ (mkPat n1 v1).length := by
            cases hmk : mkPat n1 v1 with
            | nil => exact absurd hmk (mkPat_ne_nil n1 v1)
            | cons _ _ => simp
          simp only [List.length_cons, List.length_append] at this hlen ⊢
          omega
        rcases List.append_eq_append_iff.mp hsplit with ⟨a', ha1, ha2⟩ | ⟨c', hc1, hc2⟩
        · have hsb : SubStr (mkPat n2 v2) b := ⟨a', b2, by rw [ha2, List.append_assoc]⟩
          exact SubStr.append_right _ r _ (ih b hblen hsb)
        · cases hc' : c' with
          | nil =>
            rw [hc'] at hc2
            simp only [List.nil_append] at hc2
            have hsb : SubStr (mkPat n2 v2) b := ⟨[], b2, by simp [hc2.symm]⟩
            exact SubStr.append_right _ r _ (ih b hblen hsb)
          | cons z zs =>
            exfalso
            rcases List.append_eq_append_iff.mp hc2 with ⟨w1, hw1, -⟩ | ⟨w2, hw2, -⟩
            · have := pat_in_pat n1 v1 n2 v2 a w1 c1 c2 c3 c4
                (by rw [hc1, hw1, List.append_assoc])
              exact hne (by rw [this.2.2.1, this.2.2.2])
            · cases hw2' : w2 with
              | nil =>
                rw [hw2'] at hw2
                simp only [List.append_nil] at hw2
                have := pat_in_pat n1 v1 n2 v2 a [] c1 c2 c3 c4 (by rw [hc1, hw2]; simp)
                exact hne (by rw [this.2.2.1, this.2.2.2])
              | cons z2 zs2 =>
                exact pat_straddle n1 v1 n2 v2 a c' w2 c1 c2 c3 c4 hc1 (by rw [hc']; simp)
                  hw2 (by rw [hw2']; simp)
      · rename_i hcond
        obtain ⟨a, b2, hocc⟩ := hs
        cases a with
        | nil =>
          simp only [List.nil_append] at hocc
          cases hmk : mkPat n2 v2 with
          | nil => exact absurd hmk (mkPat_ne_nil n2 v2)
          | cons d q' =>
            rw [hmk, List.cons_append] at hocc
            injection hocc with hcd hcs
            subst hcd
            rw [hcs]
            have hcomm : replaceAllPlain (mkPat n1 v1) r (q' ++ b2) =
                q' ++ replaceAllPlain (mkPat n1 v1) r b2 := by
              apply replaceAllPlain_append_left
              intro i hi
              apply pat_no_inner_start n1 v1 n2 v2 (c :: q'.take i) (q'.drop i) b2 c1 c2 c3 c4
              · rw [hmk]
                simp [List.take_append_drop]
              · intro hnil
                have := congrArg List.length hnil
                simp only [List.length_drop, List.length] at this
                omega
              · simp
            rw [hcomm]
            exact ⟨[], replaceAllPlain (mkPat n1 v1) r b2, by simp [hmk]⟩
        | cons x a' =>
          rw [List.cons_append, List.cons_append] at hocc
          injection hocc with hcx hcs
          have hsb : SubStr (mkPat n2 v2) cs := ⟨a', b2, by simpa [List.append_assoc] using hcs⟩
          have hlen' : cs.length ≤ N := by simp at hlen; omega
          exact SubStr.cons _ c _ (ih cs hlen' hsb)

/-- Wrapper of the preservation result at the natural fuel. -/
theorem substr_preserved (n1 v1 n2 v2 r t : List Char)
    (c1 : CleanSeg n1) (c2 : CleanSeg v1) (c3 : CleanSeg n2) (c4 : CleanSeg v2)
    (hne : mkPat n1 v1 ≠ mkPat n2 v2) (hs : SubStr (mkPat n2 v2) t) :
    SubStr (mkPat n2 v2) (replaceAllPlain (mkPat n1 v1) r t) :=
  substr_preserved_go n1 v1 n2 v2 r c1 c2 c3 c4 hne t.length t le_rfl hs

/-! ### Well-separated texts: patterns occur only as whole pieces -/

theorem render_nil : render [] = [] := rfl

theorem render_cons (pc : Piece) (ps : List Piece) :
    render (pc :: ps) = pieceStr pc ++ render ps := by
  simp [render]

theorem slash_mem_mkPat (n v : List Char) : '/' ∈ mkPat n v := by
  rw [mkPat_chunks]; simp

theorem mkPat_head_slash (n v : List Char) (z : Char) (zs w2 : List Char)
    (h : mkPat n v = (z :: zs) ++ w2) : z = '/' := by
  rw [mkPat_chunks] at h
  simp only [List.cons_append] at h
  injection h with hz _
  exact hz.symm

theorem wf_head_frag (f : List Char) (ps : List Piece) (h : WFpieces (Piece.frag f :: ps)) :
    '/' ∉ f :=
  h (Piece.frag f) (List.mem_cons_self _ _)

theorem wf_head_pat (n v : List Char) (ps : List Piece) (h : WFpieces (Piece.pat n v :: ps)) :
    CleanSeg n ∧ CleanSeg v :=
  h (Piece.pat n v) (List.mem_cons_self _ _)

theorem pieceWF_frag (f : List Char) (h : '/' ∉ f) : pieceWF (Piece.frag f) := h

theorem pieceWF_pat (n v : List Char) (hn : CleanSeg n) (hv : CleanSeg v) :
    pieceWF (Piece.pat n v) := ⟨hn, hv⟩

theorem wf_tail (pc : Piece) (ps : List Piece) (h : WFpieces (pc :: ps)) : WFpieces ps :=
  fun x hx => h x (List.mem_cons_of_mem pc hx)

/-- Master separation lemma: in a well-separated text, an occurrence of a
clean canonical pattern can only be one of the whole pattern pieces. -/
theorem master_substr (n v : List Char) (cn : CleanSeg n) (cv : CleanSeg v) :
    ∀ ps, WFpieces ps → SubStr (mkPat n v) (render ps) → Piece.pat n v ∈ ps := by
  intro ps
  induction ps with
  | nil =>
    intro _ hs
    exact absurd (SubStr.nil_elim _ hs) (mkPat_ne_nil n v)
  | cons pc rest ih =>
    intro hwf hs
    obtain ⟨a, b, hocc⟩ := hs
    rw [render_cons, List.append_assoc] at hocc
    rcases List.append_eq_append_iff.mp hocc with ⟨a', -, ha2⟩ | ⟨c', hc1, hc2⟩
    · exact List.mem_cons_of_mem pc
        (ih (wf_tail pc rest hwf) ⟨a', b, by rw [ha2, List.append_assoc]⟩)
    · cases hc' : c' with
      | nil =>
        rw [hc'] at hc2
        simp only [List.nil_append] at hc2
        exact List.mem_cons_of_mem pc
          (ih (wf_tail pc rest hwf) ⟨[], b, by simp [hc2.symm]⟩)
      | cons z zs =>
        rcases List.append_eq_append_iff.mp hc2 with ⟨w1, hw1, -⟩ | ⟨w2, hw2, -⟩
        · -- the pattern lies inside the first piece
          cases pc with
          | frag f =>
            exfalso
            have hmem : '/' ∈ f := by
              have : '/' ∈ pieceStr (Piece.frag f) := by
                rw [hc1, hw1]
                exact List.mem_append_right a
                  (List.mem_append_left w1 (slash_mem_mkPat n v))
              simpa [pieceStr] using this
            exact (wf_head_frag f rest hwf) hmem
          | pat n' v' =>
            obtain ⟨hcn', hcv'⟩ := wf_head_pat n' v' rest hwf
            have := pat_in_pat n' v' n v a w1 hcn' hcv' cn cv
              (by simpa [pieceStr, List.append_assoc] using hc1.trans (by rw [hw1]))
            rw [this.2.2.1, this.2.2.2]
            exact List.mem_cons_self _ _
        · cases hw2' : w2 with
          | nil =>
            rw [hw2'] at hw2
            simp only [List.append_nil] at hw2
            cases pc with
            | frag f =>
              exfalso
              have hmem : '/' ∈ f := by
                have : '/' ∈ pieceStr (Piece.frag f) := by
                  rw [hc1, ← hw2]
                  exact List.mem_append_right a (slash_mem_mkPat n v)
                simpa [pieceStr] using this
              exact (wf_head_frag f rest hwf) hmem
            | pat n' v' =>
              obtain ⟨hcn', hcv'⟩ := wf_head_pat n' v' rest hwf
              have := pat_in_pat n' v' n v a [] hcn' hcv' cn cv
                (by rw [show mkPat n' v' = pieceStr (Piece.pat n' v') from rfl, hc1, ← hw2]; simp)
              rw [this.2.2.1, this.2.2.2]
              exact List.mem_cons_self _ _
          | cons z2 zs2 =>
            exfalso
            have hz : z = '/' := mkPat_head_slash n v z zs w2 (by rw [← hc', hw2])
            cases pc with
            | frag f =>
              have hmem : '/' ∈ f := by
                have : '/' ∈ pieceStr (Piece.frag f) := by
                  rw [hc1, hc']
                  rw [hz]
                  exact List.mem_append_right a (List.mem_cons_self '/' zs)
                simpa [pieceStr] using this
              exact (wf_head_frag f rest hwf) hmem
            | pat n' v' =>
              obtain ⟨hcn', hcv'⟩ := wf_head_pat n' v' rest hwf
              exact pat_straddle n' v' n v a c' w2 hcn' hcv' cn cv
                (by simpa [pieceStr] using hc1) (by rw [hc']; simp) hw2 (by rw [hw2']; simp)

/-- Global replacement of a clean pattern acts piecewise on a well-separated
text: exactly the matching pattern pieces are replaced. -/
theorem replaceAllPlain_render (n v r : List Char) (cn : CleanSeg n) (cv : CleanSeg v) :
    ∀ ps, WFpieces ps →
      replaceAllPlain (mkPat n v) r (render ps) = render (ps.map (substPiece n v r)) := by
  intro ps
  induction ps with
  | nil => intro _; rfl
  | cons pc rest ih =>
    intro hwf
    rw [render_cons, List.map_cons, render_cons]
    cases pc with
    | frag f =>
      have hns : ∀ i, i < f.length → isPreB (mkPat n v) (f.drop i ++ render rest) = false := by
        intro i hi
        cases hpre : isPreB (mkPat n v) (f.drop i ++ render rest) with
        | false => rfl
        | true =>
          exfalso
          obtain ⟨b, hb⟩ := (isPreB_iff _ _).mp hpre
          cases hdrop : f.drop i with
          | nil =>
            have hlen2 := congrArg List.length hdrop
            rw [List.length_drop] at hlen2
            simp only [List.length_nil] at hlen2
            omega
          | cons e es =>
            have he : e = '/' := by
              rw [hdrop] at hb
              rw [mkPat_chunks] at hb
              simp only [List.cons_append] at hb
              rw [List.cons.injEq] at hb
              exact hb.1
            have hmem : e ∈ f := List.drop_subset i f (hdrop ▸ List.mem_cons_self e es)
            rw [he] at hmem
            exact (wf_head_frag f rest hwf) hmem
      simp only [pieceStr, substPiece]
      rw [replaceAllPlain_append_left _ _ _ _ hns, ih (wf_tail _ _ hwf)]
    | pat n' v' =>
      obtain ⟨hcn', hcv'⟩ := wf_head_pat n' v' rest hwf
      by_cases hmatch : n' = n ∧ v' = v
      · obtain ⟨rfl, rfl⟩ := hmatch
        show replaceAllPlain (mkPat n' v') r (mkPat n' v' ++ render rest) = _
        rw [replaceAllPlain_head_match _ _ _ (mkPat_ne_nil n' v'), ih (wf_tail _ _ hwf)]
        simp [substPiece, pieceStr]
      · have hns : ∀ i, i < (mkPat n' v').length →
            isPreB (mkPat n v) ((mkPat n' v').drop i ++ render rest) = false := by
          intro i hi
          rcases Nat.eq_zero_or_pos i with rfl | hpos
          · cases hpre : isPreB (mkPat n v) ((mkPat n' v').drop 0 ++ render rest) with
            | false => rfl
            | true =>
              exfalso
              rw [List.drop_zero] at hpre
              have := pat_pre n v n' v' (render rest) cn cv hcn' hcv' hpre
              exact hmatch ⟨this.1.symm, this.2.symm⟩
          · apply pat_no_inner_start n v n' v' ((mkPat n' v').take i) ((mkPat n' v').drop i)
              (render rest) cn cv hcn' hcv'
            · rw [List.take_append_drop]
            · intro hnil
              have hlen2 := congrArg List.length hnil
              rw [List.length_drop] at hlen2
              simp only [List.length_nil] at hlen2
              omega
            · intro hnil
              have hlen2 := congrArg List.length hnil
              rw [List.length_take] at hlen2
              simp only [List.length_nil] at hlen2
              have hlen : 0 < (mkPat n' v').length := by
                cases hmk : mkPat n' v' with
                | nil => exact absurd hmk (mkPat_ne_nil n' v')
                | cons _ _ => simp
              omega
        show replaceAllPlain (mkPat n v) r (mkPat n' v' ++ render rest) = _
        rw [replaceAllPlain_append_left _ _ _ _ hns, ih (wf_tail _ _ hwf)]
        simp [substPiece, pieceStr, hmatch]

/-! ### Characterization of runs with no secondary entry points -/

theorem depStep_empty (recur : ProcArgs → RunState → Option RunState) (m text : List Char)
    (st : RunState) (e : List Char) :
    depStep emptyRegistry recur m (some (text, st)) e =
      some ((if (splitPackageVersion e).name ≠ m
          then replaceAll (patOf (splitPackageVersion e)) (splitPackageVersion e).name text
          else text), st) := rfl

theorem foldDep_empty (recur : ProcArgs → RunState → Option RunState) (m : List Char) :
    ∀ (deps : List (List Char)) (text : List Char) (st : RunState),
      deps.foldl (depStep emptyRegistry recur m) (some (text, st)) =
        some (rewriteText deps m text, st) := by
  intro deps
  induction deps with
  | nil => intro text st; rfl
  | cons e es ih =>
    intro text st
    rw [List.foldl_cons, depStep_empty, ih]
    rfl

theorem processModule_empty (fetch : Fetch) (tb js : List Char) (l : List (List Char))
    (f : Nat) (a : ProcArgs) (st : RunState) :
    processModule fetch emptyRegistry tb js l (f + 1) a st =
      some (finalizeModule tb js a
        (rewriteText l a.moduleName (fetch a.originalModuleName a.moduleVersion a.modulePath))
        st) := by
  show (match l.foldl
      (depStep emptyRegistry (processModule fetch emptyRegistry tb js l f) a.moduleName)
      (some (fetch a.originalModuleName a.moduleVersion a.modulePath, st)) with
    | none => none
    | some (text, st) => some (finalizeModule tb js a text st)) = _
  rw [foldDep_empty]

theorem appStep_empty (fetch : Fetch) (tb js : List Char) (l : List (List Char)) (f : Nat)
    (st : RunState) (e : List Char) :
    appStep fetch emptyRegistry tb js l (f + 1) (some st) e =
      some (finalizeModule tb js
        ⟨(splitPackageVersion e).name, (splitPackageVersion e).originalName,
          (splitPackageVersion e).version, none⟩
        (moduleTextOf fetch l e) st) := by
  show processModule fetch emptyRegistry tb js l (f + 1)
      ⟨(splitPackageVersion e).name, (splitPackageVersion e).originalName,
        (splitPackageVersion e).version, none⟩ st = _
  rw [processModule_empty]
  rfl

theorem appFold_empty (fetch : Fetch) (tb js : List Char) (l : List (List Char)) (f : Nat) :
    ∀ (deps : List (List Char)) (st : RunState),
      deps.foldl (appStep fetch emptyRegistry tb js l (f + 1)) (some st) =
        some { written := st.written ++
                 deps.map (fun e => ((splitPackageVersion e).name, moduleTextOf fetch l e))
               loadModuleLines := st.loadModuleLines ++
                 deps.map (fun e =>
                   loadLineOf js (splitPackageVersion e).name (splitPackageVersion e).version)
               createStatements := st.createStatements ++
                 deps.map (fun e =>
                   createStmtOf tb (splitPackageVersion e).name (splitPackageVersion e).version)
               dropStatements := st.dropStatements ++
                 deps.map (fun e => dropStmtOf (splitPackageVersion e).name)
               envImports := st.envImports ++
                 deps.map (fun e => importOf (splitPackageVersion e).name)
               allUnreplacedModules := st.allUnreplacedModules ++
                 deps.filterMap (unrepOf fetch l) } := by
  intro deps
  induction deps with
  | nil => intro st; simp
  | cons e es ih =>
    intro st
    rw [List.foldl_cons, appStep_empty, ih]
    simp only [finalizeModule, unrepOf, moduleTextOf, List.filterMap_cons]
    split_ifs with hcond
    · simp [List.append_assoc]
    · simp [List.append_assoc]

theorem appRun_empty (fetch : Fetch) (tb js root : List Char) (l : List (List Char)) (f : Nat) :
    appRun fetch emptyRegistry tb js (f + 1) l root =
      some (emptyRunResult fetch tb js root l) := by
  show (match l.foldl (appStep fetch emptyRegistry tb js l (f + 1)) (some initState) with
    | none => none
    | some st =>
      some { st with
        createStatements := st.createStatements ++ [envCreateStmt root st.envImports]
        dropStatements := st.dropStatements ++ [envDropStmt root] }) = _
  rw [appFold_empty fetch tb js l f l initState]
  simp [initState, emptyRunResult]

/-! ### Artifact-template facts -/

theorem create_ne_envCreate (tb n : List Char) (ver : Option (List Char)) (root : List Char)
    (imps : List (List Char)) : createStmtOf tb n ver ≠ envCreateStmt root imps := by
  intro h
  have h23 := congrArg (List.take 23) h
  have e1 : List.take 23 (createStmtOf tb n ver) = "create or replace mle m".data := rfl
  have e2 : List.take 23 (envCreateStmt root imps) = "create or replace mle e".data := rfl
  rw [e1, e2] at h23
  exact absurd h23 (by decide)

theorem drop_ne_envDrop (n root : List Char) : dropStmtOf n ≠ envDropStmt root := by
  intro h
  have h10 := congrArg (List.take 10) h
  have e1 : List.take 10 (dropStmtOf n) = "drop mle m".data := rfl
  have e2 : List.take 10 (envDropStmt root) = "drop mle e".data := rfl
  rw [e1, e2] at h10
  exact absurd h10 (by decide)

theorem rewriteText_all_self (l : List (List Char)) (m : List Char)
    (hall : ∀ e ∈ l, (splitPackageVersion e).name = m) (t : List Char) :
    rewriteText l m t = t := by
  induction l with
  | nil => rfl
  | cons e es ih =>
    show rewriteText es m (if (splitPackageVersion e).name ≠ m then _ else t) = t
    rw [if_neg (by simp [hall e (List.mem_cons_self e es)])]
    exact ih (fun x hx => hall x (List.mem_cons_of_mem e hx))

theorem count_one_of_nodup_mem (a : List Char) (l : List (List Char)) (hn : l.Nodup)
    (ha : a ∈ l) : List.count a l = 1 := by
  induction l with
  | nil => cases ha
  | cons b bs ih =>
    rw [List.count_cons]
    rcases List.mem_cons.mp ha with rfl | hmem
    · rw [List.count_eq_zero.mpr (List.nodup_cons.mp hn).1]
      simp
    · rw [ih (List.nodup_cons.mp hn).2 hmem]
      have hne : ¬ (b == a) = true := by
        intro hbeq
        exact (List.nodup_cons.mp hn).1 (eq_of_beq hbeq ▸ hmem)
      simp [hne]

/-! ### Claim C2: exactly-once processing -/

/-- Claim C2, counterexample.  The claim states that each distinct identity
triple is processed at most once and that re-requesting a processed triple is
a no-op.  The code has no visited set: a dependency list containing the same
token `a@1` twice processes it twice, and every artifact of the triple
appears twice in the output collections. -/
theorem c2_counterexample :
    (appRun (fun _ _ _ => "t".data) emptyRegistry ("tb".data) ("js".data) 1
        ["a@1".data, "a@1".data] ("a".data)).map
      (fun st =>
        (List.count (importOf ("a".data)) st.envImports,
          List.count (loadLineOf ("js".data) ("a".data) (some ("1".data))) st.loadModuleLines,
          List.count (dropStmtOf ("a".data)) st.dropStatements)) = some (2, 2, 2) := by
  decide

/-! ### Claim C9: normalization collisions -/

/-- Claim C9, counterexample.  The claim states that two distinct original
names normalizing to the same identifier make the run fail with a
`NormalizationCollisionError`.  No such error exists: on the colliding pair
`a-b@1` and `a_b@1` (both normalize to `a_b`) the run completes normally, and
because the self-reference check compares normalized names, the sibling's
pattern `/npm/a_b@1/+esm` is silently left in the written text. -/
theorem c9_counterexample :
    ((appRun (fun orig _ _ => if orig = "a-b".data then "X/npm/a_b@1/+esmY".data else "Z".data)
        emptyRegistry ("tb".data) ("js".data) 1 ["a-b@1".data, "a_b@1".data] ("a_b".data)).map
      (fun st => st.written)) =
        some [("a_b".data, "X/npm/a_b@1/+esmY".data), ("a_b".data, "Z".data)] ∧
      subStrB ("/npm/a_b@1/+esm".data) ("X/npm/a_b@1/+esmY".data) = true ∧
      (splitPackageVersion ("a-b@1".data)).name = (splitPackageVersion ("a_b@1".data)).name ∧
      (splitPackageVersion ("a-b@1".data)).originalName ≠
        (splitPackageVersion ("a_b@1".data)).originalName := by
  decide

/-- Claim C9, amended: the code defines no collision error.  When every entry
of the dependency set normalizes to the processed module's own name (the
collision scenario), the self-reference check skips every substitution, the
run completes, and each written text is the fetched text unchanged — so a
colliding sibling's reference pattern survives silently. -/
theorem c9_amended (fetch : Fetch) (tb js root m : List Char) (l : List (List Char)) (f : Nat)
    (hall : ∀ e ∈ l, (splitPackageVersion e).name = m) :
    ∃ st, appRun fetch emptyRegistry tb js (f + 1) l root = some st ∧
      st.written = l.map (fun e =>
        (m, fetch (splitPackageVersion e).originalName (splitPackageVersion e).version none)) := by
  refine ⟨emptyRunResult fetch tb js root l, appRun_empty fetch tb js root l f, ?_⟩
  show l.map _ = l.map _
  apply List.map_congr_left
  intro e hemem
  rw [show moduleTextOf fetch l e = rewriteText l (splitPackageVersion e).name
      (fetch (splitPackageVersion e).originalName (splitPackageVersion e).version none) from rfl]
  rw [hall e hemem, rewriteText_all_self l m hall]

/-- Claim C9, witness for the amended theorem at the colliding pair. -/
theorem c9_witness :
    (∀ e ∈ ["a-b@1".data, "a_b@1".data], (splitPackageVersion e).name = "a_b".data) ∧
      ∃ st, appRun (fun orig _ _ => if orig = "a-b".data then "X/npm/a_b@1/+esmY".data
          else "Z".data) emptyRegistry ("tb".data) ("js".data) 1
          ["a-b@1".data, "a_b@1".data] ("r".data) = some st ∧
        st.written = ["a-b@1".data, "a_b@1".data].map (fun e =>
          ("a_b".data, (fun orig _ _ => if orig = "a-b".data then "X/npm/a_b@1/+esmY".data
            else "Z".data : Fetch) (splitPackageVersion e).originalName
            (splitPackageVersion e).version none)) :=
  ⟨by decide,
    c9_amended (fun orig _ _ => if orig = "a-b".data then "X/npm/a_b@1/+esmY".data else "Z".data)
      ("tb".data) ("js".data) ("r".data) ("a_b".data) ["a-b@1".data, "a_b@1".data] 0 (by decide)⟩

/-! ### The unresolved-reference scan finds a surviving pattern -/

theorem lazyMid_some (mid : List Char) (hne : mid ≠ [])
    (hnl : ∀ x ∈ mid, dotMatches x = true) (y : List Char) :
    ∃ k, lazyMid (mid ++ "/+esm".data ++ y) = some k := by
  induction mid with
  | nil => exact absurd rfl hne
  | cons c cs ih =>
    rw [List.cons_append, List.cons_append]
    have hc : ¬ dotMatches c = false := by
      rw [hnl c (List.mem_cons_self c cs)]
      simp
    have hunfold : lazyMid (c :: (cs ++ "/+esm".data ++ y)) =
        if dotMatches c = false then none
        else if isPreB "/+esm".data (cs ++ "/+esm".data ++ y) = true then some 1
        else (lazyMid (cs ++ "/+esm".data ++ y)).map (· + 1) := rfl
    cases hpre : isPreB ("/+esm".data) (cs ++ "/+esm".data ++ y) with
    | true =>
      refine ⟨1, ?_⟩
      rw [hunfold, if_neg hc, if_pos hpre]
    | false =>
      have hcs_ne : cs ≠ [] := by
        intro h0
        rw [h0] at hpre
        simp only [List.nil_append] at hpre
        rw [isPreB_self_append] at hpre
        cases hpre
      have hcs_nl : ∀ x ∈ cs, dotMatches x = true :=
        fun x hm => hnl x (List.mem_cons_of_mem c hm)
      obtain ⟨k, hk⟩ := ih hcs_ne hcs_nl
      refine ⟨k + 1, ?_⟩
      rw [hunfold, if_neg hc, if_neg (by rw [hpre]; simp), hk]
      rfl

theorem findUnreplacedGo_ne_nil :
    ∀ (N : Nat) (a mid b : List Char), mid ≠ [] → (∀ x ∈ mid, dotMatches x = true) →
      (a ++ ("/npm/".data ++ mid ++ "/+esm".data) ++ b).length ≤ N →
      findUnreplacedGo N (a ++ ("/npm/".data ++ mid ++ "/+esm".data) ++ b) ≠ [] := by
  intro N
  induction N with
  | zero =>
    intro a mid b hne hnl hlen
    exfalso
    cases hm : mid with
    | nil => exact hne hm
    | cons c cs =>
      rw [hm] at hlen
      simp only [List.length_append, List.length_cons] at hlen
      omega
  | succ N ih =>
    intro a mid b hne hnl hlen
    cases a with
    | nil =>
      simp only [List.nil_append]
      have hshape : ("/npm/".data ++ mid ++ "/+esm".data) ++ b =
          '/' :: ("npm/".data ++ (mid ++ ("/+esm".data ++ b))) := by
        have h5 : "/npm/".data = '/' :: "npm/".data := rfl
        rw [h5]
        simp [List.append_assoc]
      rw [hshape]
      have hpre : isPreB ("/npm/".data)
          ('/' :: ("npm/".data ++ (mid ++ ("/+esm".data ++ b)))) = true := by
        have hcons : ('/' : Char) :: ("npm/".data ++ (mid ++ ("/+esm".data ++ b))) =
            "/npm/".data ++ (mid ++ ("/+esm".data ++ b)) := rfl
        rw [hcons]
        exact isPreB_self_append _ _
      have hdrop : (('/' : Char) :: ("npm/".data ++ (mid ++ ("/+esm".data ++ b)))).drop 5 =
          mid ++ ("/+esm".data ++ b) := by
        have hcons : ('/' : Char) :: ("npm/".data ++ (mid ++ ("/+esm".data ++ b))) =
            "/npm/".data ++ (mid ++ ("/+esm".data ++ b)) := rfl
        rw [hcons]
        exact List.drop_left' (show ("/npm/".data).length = 5 from rfl)
      obtain ⟨k, hk⟩ := lazyMid_some mid hne hnl b
      rw [List.append_assoc] at hk
      simp only [findUnreplacedGo, hpre, if_true]
      rw [hdrop, hk]
      simp
    | cons c a' =>
      rw [List.cons_append]
      show findUnreplacedGo (N + 1) (c :: (a' ++ ("/npm/".data ++ mid ++ "/+esm".data) ++ b)) ≠ []
      have hlen' : (a' ++ ("/npm/".data ++ mid ++ "/+esm".data) ++ b).length ≤ N := by
        simp only [List.length_append, List.length_cons] at hlen ⊢
        omega
      simp only [findUnreplacedGo]
      split
      · split
        · simp
        · exact ih a' mid b hne hnl hlen'
      · exact ih a' mid b hne hnl hlen'

theorem findUnreplaced_ne_nil_of_substr (n v t : List Char)
    (dn : DotSafe n) (dv : DotSafe v)
    (hs : SubStr (mkPat n v) t) : findUnreplaced t ≠ [] := by
  obtain ⟨a, b, hab⟩ := hs
  have hmk : mkPat n v = "/npm/".data ++ (n ++ '@' :: v) ++ "/+esm".data := by
    simp [mkPat, List.append_assoc]
  have hmid_ne : n ++ '@' :: v ≠ [] := by
    intro h
    have := congrArg List.length h
    simp at this
  have hmid_nl : ∀ x ∈ n ++ '@' :: v, dotMatches x = true := by
    intro x hx
    rcases List.mem_append.mp hx with hx | hx
    · exact dn x hx
    · rcases List.mem_cons.mp hx with rfl | hx
      · decide
      · exact dv x hx
  rw [hab, hmk]
  exact findUnreplacedGo_ne_nil _ a (n ++ '@' :: v) b hmid_ne hmid_nl le_rfl

theorem mkPat_inj (n1 v1 n2 v2 : List Char) (c1 : CleanSeg n1) (c2 : CleanSeg v1)
    (c3 : CleanSeg n2) (c4 : CleanSeg v2) (h : mkPat n1 v1 = mkPat n2 v2) :
    n1 = n2 ∧ v1 = v2 :=
  have r := pat_in_pat n1 v1 n2 v2 [] [] c1 c2 c3 c4 (by simp [h])
  ⟨r.2.2.1, r.2.2.2⟩

/-- An occurrence of a clean pattern foreign to the dependency set survives
the whole plain-substitution loop. -/
theorem rewriteText_preserves (l : List (List Char)) (m n v : List Char)
    (hl : ∀ e ∈ l, CleanTok e) (cn : CleanSeg n) (cv : CleanSeg v)
    (habs : ∀ d ∈ l, ¬((splitPackageVersion d).originalName = n ∧
      versionStr (splitPackageVersion d).version = v))
    (hds : ∀ d ∈ l, '$' ∉ (splitPackageVersion d).name) :
    ∀ t : List Char, SubStr (mkPat n v) t → SubStr (mkPat n v) (rewriteText l m t) := by
  induction l with
  | nil => intro t hs; exact hs
  | cons d ds ih =>
    intro t hs
    have hd := hl d (List.mem_cons_self d ds)
    show SubStr (mkPat n v) (rewriteText ds m
      (if (splitPackageVersion d).name ≠ m then _ else t))
    have hl' : ∀ e ∈ ds, CleanTok e := fun e he => hl e (List.mem_cons_of_mem d he)
    have habs' : ∀ e ∈ ds, ¬((splitPackageVersion e).originalName = n ∧
        versionStr (splitPackageVersion e).version = v) :=
      fun e he => habs e (List.mem_cons_of_mem d he)
    have hds' : ∀ e ∈ ds, '$' ∉ (splitPackageVersion e).name :=
      fun e he => hds e (List.mem_cons_of_mem d he)
    split
    · apply ih hl' habs' hds'
      show SubStr (mkPat n v) (replaceAll (patOf (splitPackageVersion d))
        (splitPackageVersion d).name t)
      rw [show patOf (splitPackageVersion d) = mkPat (splitPackageVersion d).originalName
        (versionStr (splitPackageVersion d).version) from rfl]
      rw [replaceAll_eq_plain _ _ _ (hds d (List.mem_cons_self d ds))]
      apply substr_preserved _ _ _ _ _ _ hd.1 hd.2 cn cv _ hs
      intro heq
      exact habs d (List.mem_cons_self d ds) (mkPat_inj _ _ _ _ hd.1 hd.2 cn cv heq)
    · exact ih hl' habs' hds' t hs

/-! ### Claim C5: unresolved references survive, are recorded, never fatal -/

/-- Claim C5, counterexample.  The claim states that a reference pattern for
a package absent from the dependency set always survives rewriting and is
recorded as an unresolved reference.  A sibling whose original name contains
a path fragment (`a/npm/x`) produces a substitution pattern that strictly
contains the absent package's pattern `/npm/x@1/+esm`; replacing the sibling
destroys the inner occurrence, so nothing survives and nothing is recorded. -/
theorem c5_counterexample :
    subStrB ("/npm/x@1/+esm".data) ("/npm/a/npm/x@1/+esm".data) = true ∧
      ((splitPackageVersion ("m@1".data)).originalName ≠ "x".data ∧
        (splitPackageVersion ("a/npm/x@1".data)).originalName ≠ "x".data) ∧
      ((appRun (fun orig _ _ => if orig = "m".data then "/npm/a/npm/x@1/+esm".data else "Z".data)
          emptyRegistry ("tb".data) ("js".data) 1 ["m@1".data, "a/npm/x@1".data] ("m".data)).map
        (fun st => (st.written, st.allUnreplacedModules))) =
        some ([("m".data, "a/npm/x".data), ("a/npm/x".data, "Z".data)], []) ∧
      subStrB ("/npm/x@1/+esm".data) ("a/npm/x".data) = false := by
  decide

/-- Claim C5, amended: in a run with no secondary entry points over a clean
dependency set whose normalized names are `$`-free, an occurrence of the
clean reference pattern of a package absent from the set — its name and
version also free of the four line terminators the regex dot rejects —
survives the rewriting of every module, the affected module is recorded with
its regex matches in the run-wide diagnostic list, and the run completes,
producing artifacts for every entry of the list. -/
theorem c5_amended (fetch : Fetch) (tb js root : List Char) (l : List (List Char)) (f : Nat)
    (e : List Char) (he : e ∈ l) (hl : ∀ x ∈ l, CleanTok x)
    (n v : List Char) (cn : CleanSeg n) (cv : CleanSeg v)
    (habs : ∀ d ∈ l, ¬((splitPackageVersion d).originalName = n ∧
      versionStr (splitPackageVersion d).version = v))
    (hds : ∀ d ∈ l, '$' ∉ (splitPackageVersion d).name)
    (dn : DotSafe n) (dv : DotSafe v)
    (hs : SubStr (mkPat n v)
      (fetch (splitPackageVersion e).originalName (splitPackageVersion e).version none)) :
    ∃ st, appRun fetch emptyRegistry tb js (f + 1) l root = some st ∧
      SubStr (mkPat n v) (moduleTextOf fetch l e) ∧
      ((splitPackageVersion e).name, findUnreplaced (moduleTextOf fetch l e)) ∈
        st.allUnreplacedModules ∧
      st.loadModuleLines.length = l.length ∧ st.written.length = l.length := by
  have hsurv : SubStr (mkPat n v) (moduleTextOf fetch l e) :=
    rewriteText_preserves l (splitPackageVersion e).name n v hl cn cv habs hds _ hs
  refine ⟨emptyRunResult fetch tb js root l, appRun_empty fetch tb js root l f, hsurv, ?_, ?_, ?_⟩
  · show _ ∈ l.filterMap (unrepOf fetch l)
    apply List.mem_filterMap.mpr
    refine ⟨e, he, ?_⟩
    have hne := findUnreplaced_ne_nil_of_substr n v _ dn dv hsurv
    have hpos : 1 ≤ (findUnreplaced (moduleTextOf fetch l e)).length := by
      cases hfu : findUnreplaced (moduleTextOf fetch l e) with
      | nil => exact absurd hfu hne
      | cons _ _ => simp
    simp only [unrepOf]
    rw [if_pos hpos]
  · show (l.map _).length = l.length
    exact List.length_map _ _
  · show (l.map _).length = l.length
    exact List.length_map _ _

/-- Claim C5, witness for the amended theorem: one clean dependency whose
module text references the absent package `x@2`. -/
theorem c5_witness :
    ∃ st, appRun (fun orig _ _ => if orig = "foo".data then "A/npm/x@2/+esmB".data else "Z".data)
        emptyRegistry ("tb".data) ("js".data) 1 ["foo@1".data] ("r".data) = some st ∧
      SubStr (mkPat ("x".data) ("2".data))
        (moduleTextOf (fun orig _ _ => if orig = "foo".data then "A/npm/x@2/+esmB".data
          else "Z".data) ["foo@1".data] ("foo@1".data)) ∧
      ((splitPackageVersion ("foo@1".data)).name,
        findUnreplaced (moduleTextOf (fun orig _ _ => if orig = "foo".data
          then "A/npm/x@2/+esmB".data else "Z".data) ["foo@1".data] ("foo@1".data))) ∈
        st.allUnreplacedModules ∧
      st.loadModuleLines.length = (["foo@1".data] : List (List Char)).length ∧
      st.written.length = (["foo@1".data] : List (List Char)).length :=
  c5_amended (fun orig _ _ => if orig = "foo".data then "A/npm/x@2/+esmB".data else "Z".data)
    ("tb".data) ("js".data) ("r".data) ["foo@1".data] 0 ("foo@1".data)
    (by decide) (by decide) ("x".data) ("2".data) (by decide) (by decide) (by decide)
    (by decide) (by decide) (by decide)
    ⟨"A".data, "B".data, rfl⟩

/-! ### The dependency loop acts piecewise on well-separated texts -/

theorem underscored_no_slash (s : List Char) (h : '/' ∉ s) : '/' ∉ underscored s := by
  intro hm
  obtain ⟨c, hc, hcm⟩ := List.mem_map.mp hm
  by_cases hc' : c = '-'
  · rw [hc'] at hcm; simp at hcm
  · simp only [if_neg hc'] at hcm
    exact h (hcm ▸ hc)

theorem name_eq_underscored (e : List Char) :
    (splitPackageVersion e).name = underscored (splitPackageVersion e).originalName := rfl

theorem wf_map_subst (n v r : List Char) (hr : '/' ∉ r) (ps : List Piece) (h : WFpieces ps) :
    WFpieces (ps.map (substPiece n v r)) := by
  intro pc hpc
  obtain ⟨pc0, hpc0, hmap⟩ := List.mem_map.mp hpc
  subst hmap
  cases pc0 with
  | frag f => exact h (Piece.frag f) hpc0
  | pat n' v' =>
    show pieceWF (substPiece n v r (Piece.pat n' v'))
    simp only [substPiece]
    split
    · exact pieceWF_frag r hr
    · exact h (Piece.pat n' v') hpc0

/-- The whole plain-substitution loop acts piecewise on a well-separated
text. -/
theorem rewriteText_render (l : List (List Char)) (m : List Char) (hl : ∀ e ∈ l, CleanTok e)
    (hds : ∀ e ∈ l, '$' ∉ (splitPackageVersion e).name) :
    ∀ ps, WFpieces ps →
      rewriteText l m (render ps) =
        render (ps.map (fun pc => l.foldl (fun pc2 e => stepPiece m e pc2) pc)) := by
  induction l with
  | nil =>
    intro ps _
    show render ps = render (ps.map fun pc => pc)
    rw [List.map_id']
  | cons e es ih =>
    intro ps hwf
    have he := hl e (List.mem_cons_self e es)
    have hl' : ∀ x ∈ es, CleanTok x := fun x hx => hl x (List.mem_cons_of_mem e hx)
    have hds' : ∀ x ∈ es, '$' ∉ (splitPackageVersion x).name :=
      fun x hx => hds x (List.mem_cons_of_mem e hx)
    show rewriteText es m
      (if (splitPackageVersion e).name ≠ m then _ else render ps) = _
    by_cases hm : (splitPackageVersion e).name ≠ m
    · rw [if_pos hm]
      rw [show patOf (splitPackageVersion e) = mkPat (splitPackageVersion e).originalName
        (versionStr (splitPackageVersion e).version) from rfl]
      rw [replaceAll_eq_plain _ _ _ (hds e (List.mem_cons_self e es))]
      rw [replaceAllPlain_render _ _ _ he.1 he.2 ps hwf]
      rw [ih hl' hds' _ (wf_map_subst _ _ _
        (name_eq_underscored e ▸ underscored_no_slash _ he.1.2.1) ps hwf)]
      rw [List.map_map]
      congr 1
      apply List.map_congr_left
      intro pc _
      show es.foldl _ (substPiece _ _ _ pc) = es.foldl _ (stepPiece m e pc)
      rw [show stepPiece m e pc = substPiece (splitPackageVersion e).originalName
        (versionStr (splitPackageVersion e).version) (splitPackageVersion e).name pc from by
          simp [stepPiece, hm]]
    · rw [if_neg hm]
      rw [ih hl' hds' ps hwf]
      congr 1
      apply List.map_congr_left
      intro pc _
      show es.foldl _ pc = es.foldl _ (stepPiece m e pc)
      rw [show stepPiece m e pc = pc from by simp [stepPiece, hm]]

theorem pieceFold_frag (m : List Char) (l : List (List Char)) (f0 : List Char) :
    l.foldl (fun pc e => stepPiece m e pc) (Piece.frag f0) = Piece.frag f0 := by
  induction l with
  | nil => rfl
  | cons e es ih =>
    show es.foldl _ (stepPiece m e (Piece.frag f0)) = _
    rw [show stepPiece m e (Piece.frag f0) = Piece.frag f0 from by
      simp only [stepPiece, substPiece]; split <;> rfl]
    exact ih

theorem pieceFold_pat (m n v : List Char) (l : List (List Char)) :
    l.foldl (fun pc e => stepPiece m e pc) (Piece.pat n v) =
      if l.any (firesOn m n v) then Piece.frag (underscored n) else Piece.pat n v := by
  induction l with
  | nil => rfl
  | cons e es ih =>
    show es.foldl _ (stepPiece m e (Piece.pat n v)) = _
    by_cases hf : firesOn m n v e = true
    · obtain ⟨hfm, hfo, hfv⟩ : (splitPackageVersion e).name ≠ m ∧
          (splitPackageVersion e).originalName = n ∧
          versionStr (splitPackageVersion e).version = v := by
        have := hf
        simp only [firesOn, Bool.and_eq_true, Bool.not_eq_true', beq_eq_false_iff_ne,
          beq_iff_eq] at this
        exact ⟨this.1.1, this.1.2, this.2⟩
      rw [show stepPiece m e (Piece.pat n v) =
          Piece.frag ((splitPackageVersion e).name) from by
        simp only [stepPiece, substPiece, if_pos hfm]
        rw [if_pos ⟨hfo.symm, hfv.symm⟩]]
      rw [pieceFold_frag]
      rw [if_pos (List.any_eq_true.mpr ⟨e, List.mem_cons_self e es, hf⟩)]
      rw [name_eq_underscored, hfo]
    · rw [show stepPiece m e (Piece.pat n v) = Piece.pat n v from by
        simp only [firesOn, Bool.and_eq_true, Bool.not_eq_true', beq_eq_false_iff_ne,
          beq_iff_eq, not_and] at hf
        simp only [stepPiece, substPiece]
        split
        · rename_i hm
          split
          · rename_i hcond
            exfalso
            exact hf ⟨hm, hcond.1.symm⟩ hcond.2.symm
          · rfl
        · rfl]
      rw [ih]
      have hany : (e :: es).any (firesOn m n v) = es.any (firesOn m n v) := by
        simp only [List.any_cons]
        rw [Bool.eq_false_iff.mpr hf]
        simp
      rw [hany]

theorem wf_fold_map (m : List Char) (l : List (List Char)) (ps : List Piece)
    (h : WFpieces ps) :
    WFpieces (ps.map (fun pc => l.foldl (fun pc2 e => stepPiece m e pc2) pc)) := by
  intro pc hpc
  obtain ⟨pc0, hpc0, hmap⟩ := List.mem_map.mp hpc
  subst hmap
  cases pc0 with
  | frag f =>
    show pieceWF _
    rw [pieceFold_frag]
    exact h (Piece.frag f) hpc0
  | pat n' v' =>
    show pieceWF _
    rw [pieceFold_pat]
    have hclean : CleanSeg n' ∧ CleanSeg v' := h (Piece.pat n' v') hpc0
    split
    · exact pieceWF_frag _ (underscored_no_slash n' hclean.1.2.1)
    · exact pieceWF_pat _ _ hclean.1 hclean.2

theorem perm_any_eq (l1 l2 : List (List Char)) (hp : l1.Perm l2) (q : List Char → Bool) :
    l1.any q = l2.any q := by
  cases h1 : l1.any q with
  | true =>
    obtain ⟨x, hx, hqx⟩ := List.any_eq_true.mp h1
    exact (List.any_eq_true.mpr ⟨x, hp.mem_iff.mp hx, hqx⟩).symm
  | false =>
    cases h2 : l2.any q with
    | false => rfl
    | true =>
      obtain ⟨x, hx, hqx⟩ := List.any_eq_true.mp h2
      rw [List.any_eq_true.mpr ⟨x, hp.mem_iff.mpr hx, hqx⟩] at h1
      cases h1

/-! ### Claim C1: referential closure -/

/-- Claim C1, counterexample.  The claim states that after a run with no
secondary entry points, no written text contains the canonical pattern of
any *other* identifier of the set.  With the colliding clean identifiers
`a-b@1` and `a_b@1` (distinct original names, same normalized name `a_b`),
the module processed for `a-b@1` keeps the sibling's pattern
`/npm/a_b@1/+esm`: the self-reference check compares normalized names, so
the sibling's substitution is skipped. -/
theorem c1_counterexample :
    ((appRun (fun orig _ _ => if orig = "a-b".data then "X/npm/a_b@1/+esmY".data else "Z".data)
        emptyRegistry ("tb".data) ("js".data) 1 ["a-b@1".data, "a_b@1".data] ("q".data)).map
      (fun st => st.written.head?)) = some (some ("a_b".data, "X/npm/a_b@1/+esmY".data)) ∧
      subStrB (patOf (splitPackageVersion ("a_b@1".data))) ("X/npm/a_b@1/+esmY".data) = true ∧
      (splitPackageVersion ("a_b@1".data)).originalName ≠
        (splitPackageVersion ("a-b@1".data)).originalName := by
  decide

/-- Claim C1, amended: for a run with no secondary entry points over a clean
dependency set whose fetched sources are well-separated, no written text
contains the canonical pattern of any identifier of the set whose normalized
name differs from that module's name (each substitution being global); the
exception forced by the counterexample is an identifier colliding with the
module's own normalized name, and the normalized names are `$`-free so no
substitution-template escape of the string replacement fires. -/
theorem c1_amended (fetch : Fetch) (tb js root : List Char) (l : List (List Char)) (f : Nat)
    (hl : ∀ e ∈ l, CleanTok e)
    (hds : ∀ e ∈ l, '$' ∉ (splitPackageVersion e).name)
    (hw : ∀ e ∈ l, WellSep (fetch (splitPackageVersion e).originalName
      (splitPackageVersion e).version none)) :
    ∃ st, appRun fetch emptyRegistry tb js (f + 1) l root = some st ∧
      ∀ p ∈ st.written, ∀ d ∈ l, (splitPackageVersion d).name ≠ p.1 →
        ¬ SubStr (patOf (splitPackageVersion d)) p.2 := by
  refine ⟨emptyRunResult fetch tb js root l, appRun_empty fetch tb js root l f, ?_⟩
  intro p hp d hd hne hsub
  obtain ⟨e, he, hpe⟩ := List.mem_map.mp hp
  obtain ⟨ps, hwf, hrender⟩ := hw e he
  have hp1 : p.1 = (splitPackageVersion e).name := by rw [← hpe]
  have hp2 : p.2 = moduleTextOf fetch l e := by rw [← hpe]
  rw [hp2, show moduleTextOf fetch l e = rewriteText l (splitPackageVersion e).name
    (fetch (splitPackageVersion e).originalName (splitPackageVersion e).version none) from rfl,
    hrender, rewriteText_render l _ hl hds ps hwf] at hsub
  have hd_clean := hl d hd
  rw [show patOf (splitPackageVersion d) = mkPat (splitPackageVersion d).originalName
    (versionStr (splitPackageVersion d).version) from rfl] at hsub
  have hmem := master_substr _ _ hd_clean.1 hd_clean.2 _
    (wf_fold_map (splitPackageVersion e).name l ps hwf) hsub
  obtain ⟨pc0, hpc0, hfold⟩ := List.mem_map.mp hmem
  cases pc0 with
  | frag f0 =>
    rw [pieceFold_frag] at hfold
    cases hfold
  | pat n0 v0 =>
    rw [pieceFold_pat] at hfold
    by_cases hany : l.any (firesOn (splitPackageVersion e).name n0 v0) = true
    · rw [if_pos hany] at hfold
      cases hfold
    · rw [if_neg hany] at hfold
      injection hfold with h1 h2
      apply hany
      apply List.any_eq_true.mpr
      refine ⟨d, hd, ?_⟩
      simp only [firesOn, Bool.and_eq_true, Bool.not_eq_true', beq_eq_false_iff_ne, beq_iff_eq]
      exact ⟨⟨hp1 ▸ hne, h1.symm⟩, h2.symm⟩

/-- Claim C1, witness for the amended theorem: a two-dependency run whose
module sources are explicitly well-separated. -/
theorem c1_witness :
    ∃ st, appRun (fun orig _ _ => if orig = "foo".data then "A/npm/bar@2/+esmB".data
        else "C".data) emptyRegistry ("tb".data) ("js".data) 1
        ["foo@1".data, "bar@2".data] ("q".data) = some st ∧
      ∀ p ∈ st.written, ∀ d ∈ (["foo@1".data, "bar@2".data] : List (List Char)),
        (splitPackageVersion d).name ≠ p.1 →
        ¬ SubStr (patOf (splitPackageVersion d)) p.2 :=
  c1_amended (fun orig _ _ => if orig = "foo".data then "A/npm/bar@2/+esmB".data else "C".data)
    ("tb".data) ("js".data) ("q".data) ["foo@1".data, "bar@2".data] 0
    (by decide) (by decide)
    (by
      intro e he
      rcases List.mem_cons.mp he with rfl | he2
      · exact ⟨[Piece.frag ['A'], Piece.pat ("bar".data) ("2".data), Piece.frag ['B']],
          by intro pc hpc; fin_cases hpc <;> first | exact pieceWF_frag _ (by decide) | exact pieceWF_pat _ _ (by decide) (by decide), rfl⟩
      · rcases List.mem_cons.mp he2 with rfl | he3
        · exact ⟨[Piece.frag ['C']], by intro pc hpc; fin_cases hpc; exact pieceWF_frag _ (by decide), rfl⟩
        · cases he3)

/-! ### Claim C4: order-independence of substitution -/

/-- Claim C4, counterexample.  The claim states that permuting the
dependency list never changes a module's final rewritten text.  With two
versions of the same package in the set (`b@2`, `b@1`) and a module text in
which replacing `b@2`'s pattern creates an occurrence of `b@1`'s pattern,
the loop order decides whether the created occurrence is still substituted:
the two orders produce different final texts for module `m`. -/
theorem c4_counterexample :
    (["m@1".data, "b@2".data, "b@1".data] : List (List Char)).Perm
        ["m@1".data, "b@1".data, "b@2".data] ∧
      ((appRun (fun orig _ _ => if orig = "m".data then "/npm//npm/b@2/+esm@1/+esm".data
          else "Z".data) emptyRegistry ("tb".data) ("js".data) 1
          ["m@1".data, "b@2".data, "b@1".data] ("m".data)).map
        (fun st => st.written.head?)) = some (some ("m".data, "b".data)) ∧
      ((appRun (fun orig _ _ => if orig = "m".data then "/npm//npm/b@2/+esm@1/+esm".data
          else "Z".data) emptyRegistry ("tb".data) ("js".data) 1
          ["m@1".data, "b@1".data, "b@2".data] ("m".data)).map
        (fun st => st.written.head?)) = some (some ("m".data, "/npm/b@1/+esm".data)) ∧
      ("b".data : List Char) ≠ "/npm/b@1/+esm".data := by
  decide

/-- Claim C4, amended: over a clean dependency set with `$`-free normalized
names whose fetched sources are well-separated (so no substitution can
create or destroy another dependency's pattern occurrence, and no
substitution-template escape fires), permuting the dependency list permutes
the written modules but leaves every module's final rewritten text
unchanged. -/
theorem c4_amended (fetch : Fetch) (tb js root : List Char) (l1 l2 : List (List Char)) (f : Nat)
    (hperm : l1.Perm l2) (hl : ∀ e ∈ l1, CleanTok e)
    (hds : ∀ e ∈ l1, '$' ∉ (splitPackageVersion e).name)
    (hw : ∀ e ∈ l1, WellSep (fetch (splitPackageVersion e).originalName
      (splitPackageVersion e).version none)) :
    ∃ st1 st2, appRun fetch emptyRegistry tb js (f + 1) l1 root = some st1 ∧
      appRun fetch emptyRegistry tb js (f + 1) l2 root = some st2 ∧
      st1.written.Perm st2.written := by
  refine ⟨_, _, appRun_empty fetch tb js root l1 f, appRun_empty fetch tb js root l2 f, ?_⟩
  show (l1.map (fun e => ((splitPackageVersion e).name, moduleTextOf fetch l1 e))).Perm
    (l2.map (fun e => ((splitPackageVersion e).name, moduleTextOf fetch l2 e)))
  have hl2 : ∀ e ∈ l2, CleanTok e := fun e he => hl e (hperm.mem_iff.mpr he)
  have hds2 : ∀ e ∈ l2, '$' ∉ (splitPackageVersion e).name :=
    fun e he => hds e (hperm.mem_iff.mpr he)
  have htext : ∀ e ∈ l2, moduleTextOf fetch l1 e = moduleTextOf fetch l2 e := by
    intro e he
    obtain ⟨ps, hwf, hrender⟩ := hw e (hperm.mem_iff.mpr he)
    show rewriteText l1 _ _ = rewriteText l2 _ _
    rw [hrender, rewriteText_render l1 _ hl hds ps hwf,
      rewriteText_render l2 _ hl2 hds2 ps hwf]
    congr 1
    apply List.map_congr_left
    intro pc _
    cases pc with
    | frag f0 => rw [pieceFold_frag, pieceFold_frag]
    | pat n0 v0 => rw [pieceFold_pat, pieceFold_pat, perm_any_eq l1 l2 hperm]
  have hstep := hperm.map (fun e => ((splitPackageVersion e).name, moduleTextOf fetch l1 e))
  have heq : l2.map (fun e => ((splitPackageVersion e).name, moduleTextOf fetch l1 e)) =
      l2.map (fun e => ((splitPackageVersion e).name, moduleTextOf fetch l2 e)) :=
    List.map_congr_left (fun e he => by rw [htext e he])
  rw [heq] at hstep
  exact hstep

/-- Claim C4, witness for the amended theorem: swapping a two-dependency
list. -/
theorem c4_witness :
    ∃ st1 st2, appRun (fun orig _ _ => if orig = "foo".data then "A/npm/bar@2/+esmB".data
        else "C".data) emptyRegistry ("tb".data) ("js".data) 1
        ["foo@1".data, "bar@2".data] ("q".data) = some st1 ∧
      appRun (fun orig _ _ => if orig = "foo".data then "A/npm/bar@2/+esmB".data
        else "C".data) emptyRegistry ("tb".data) ("js".data) 1
        ["bar@2".data, "foo@1".data] ("q".data) = some st2 ∧
      st1.written.Perm st2.written :=
  c4_amended (fun orig _ _ => if orig = "foo".data then "A/npm/bar@2/+esmB".data else "C".data)
    ("tb".data) ("js".data) ("q".data) ["foo@1".data, "bar@2".data]
    ["bar@2".data, "foo@1".data] 0 (by decide) (by decide) (by decide)
    (by
      intro e he
      rcases List.mem_cons.mp he with rfl | he2
      · exact ⟨[Piece.frag ['A'], Piece.pat ("bar".data) ("2".data), Piece.frag ['B']],
          by intro pc hpc; fin_cases hpc <;> first | exact pieceWF_frag _ (by decide) | exact pieceWF_pat _ _ (by decide) (by decide), rfl⟩
      · rcases List.mem_cons.mp he2 with rfl | he3
        · exact ⟨[Piece.frag ['C']], by intro pc hpc; fin_cases hpc; exact pieceWF_frag _ (by decide), rfl⟩
        · cases he3)

/-! ### Step-evaluation lemmas for the override machinery -/

theorem processModule_succ (fetch : Fetch) (registry : Registry) (tb js : List Char)
    (l : List (List Char)) (f : Nat) (a : ProcArgs) (st : RunState) :
    processModule fetch registry tb js l (f + 1) a st =
      match l.foldl (depStep registry (processModule fetch registry tb js l f) a.moduleName)
        (some (fetch a.originalModuleName a.moduleVersion a.modulePath, st)) with
      | none => none
      | some (text, st) => some (finalizeModule tb js a text st) := rfl

theorem depStep_eval (registry : Registry) (recur : ProcArgs → RunState → Option RunState)
    (m text : List Char) (st : RunState) (pkgVer : List Char) :
    depStep registry recur m (some (text, st)) pkgVer =
      (registry (splitPackageVersion pkgVer).originalName).foldl
        (overrideStep recur (splitPackageVersion pkgVer))
        (some ((if (splitPackageVersion pkgVer).name ≠ m
          then replaceAll (patOf (splitPackageVersion pkgVer)) (splitPackageVersion pkgVer).name
            text
          else text), st)) := rfl

theorem overrideStep_nofire (recur : ProcArgs → RunState → Option RunState) (sub : PkgInfo)
    (text : List Char) (st : RunState) (ov : Override)
    (h : replaceAll (ovPatOf sub ov) ov.moduleName text = text) :
    overrideStep recur sub (some (text, st)) ov = some (text, st) := by
  simp only [overrideStep, h]
  rw [if_neg (by simp)]

theorem overrideStep_fire (recur : ProcArgs → RunState → Option RunState) (sub : PkgInfo)
    (text : List Char) (st st' : RunState) (ov : Override)
    (hfire : replaceAll (ovPatOf sub ov) ov.moduleName text ≠ text)
    (hrec : recur ⟨ov.moduleName, sub.originalName, sub.version, some ov.relativePath⟩ st =
      some st') :
    overrideStep recur sub (some (text, st)) ov =
      some (replaceAll (ovPatOf sub ov) ov.moduleName text, st') := by
  simp only [overrideStep]
  rw [if_pos hfire, hrec]

theorem finalize_envImports (tb js : List Char) (a : ProcArgs) (text : List Char)
    (st : RunState) :
    (finalizeModule tb js a text st).envImports = st.envImports ++ [importOf a.moduleName] := by
  simp only [finalizeModule]
  split <;> rfl

theorem finalize_written (tb js : List Char) (a : ProcArgs) (text : List Char) (st : RunState) :
    (finalizeModule tb js a text st).written = st.written ++ [(a.moduleName, text)] := by
  simp only [finalizeModule]
  split <;> rfl

/-! ### Claim C3: secondary entry points, depth-first -/

/-- Evaluation of a one-entry run: the single `processModule` result, then the
environment create/drop pair is appended. -/
theorem appRun_singleton (fetch : Fetch) (reg : Registry) (tb js env pv : List Char)
    (fuel : Nat) (st2 : RunState)
    (h : processModule fetch reg tb js [pv] fuel
      ⟨(splitPackageVersion pv).name, (splitPackageVersion pv).originalName,
        (splitPackageVersion pv).version, none⟩ initState = some st2) :
    appRun fetch reg tb js fuel [pv] env = some { st2 with
      createStatements := st2.createStatements ++ [envCreateStmt env st2.envImports]
      dropStatements := st2.dropStatements ++ [envDropStmt env] } := by
  have h2 : appStep fetch reg tb js [pv] fuel (some initState) pv = some st2 := h
  unfold appRun
  rw [List.foldl_cons, List.foldl_nil, h2]

/-- Claim C3, confirmed (the specification's Scenario B): a registry holding
an override for `baz` at path `lib/x.js` named `baz_x`, and a module whose
fetched source contains the override pattern.  Processing `baz` fires the
override, recursively finalizes the module `baz_x` before `baz`'s own
artifacts are appended (depth-first: `baz_x`'s entries precede `baz`'s in
every collection), and the environment-import list contains entries for
both.  The side conditions say only that the secondary entry point's own
source contains no further reference patterns of the set. -/
theorem c3_override_depth_first (fetch : Fetch) (tb js t_m t_ov : List Char)
    (hf1 : fetch ("baz".data) (some ("1".data)) none = t_m)
    (hf2 : fetch ("baz".data) (some ("1".data)) (some ("lib/x.js".data)) = t_ov)
    (hsub : SubStr ("/npm/baz@1/lib/x.js".data) t_m)
    (hnp : ¬ SubStr ("/npm/baz@1/+esm".data) t_ov)
    (hno : ¬ SubStr ("/npm/baz@1/lib/x.js".data) t_ov) :
    ∃ st, appRun fetch bazRegistry tb js 2 ["baz@1".data] ("baz".data) = some st ∧
      st.envImports = [importOf ("baz_x".data), importOf ("baz".data)] ∧
      st.written = [("baz_x".data, t_ov),
        ("baz".data, replaceAll ("/npm/baz@1/lib/x.js".data) ("baz_x".data) t_m)] ∧
      replaceAll ("/npm/baz@1/lib/x.js".data) ("baz_x".data) t_m ≠ t_m := by
  have hovp : ovPatOf (splitPackageVersion ("baz@1".data)) bazOverride =
      "/npm/baz@1/lib/x.js".data := by decide
  have hppat : patOf (splitPackageVersion ("baz@1".data)) = "/npm/baz@1/+esm".data := by decide
  have hreg : bazRegistry (splitPackageVersion ("baz@1".data)).originalName = [bazOverride] := by
    decide
  have hfire : replaceAll (ovPatOf (splitPackageVersion ("baz@1".data)) bazOverride)
      (bazOverride.moduleName) t_m ≠ t_m := by
    rw [hovp, replaceAll_eq_plain _ _ _ (by decide)]
    exact replaceAllPlain_ne_of_substr _ _ _ (by decide) hsub (by decide)
  have hinner : processModule fetch bazRegistry tb js ["baz@1".data] 1
      ⟨"baz_x".data, "baz".data, some ("1".data), some ("lib/x.js".data)⟩ initState =
      some (finalizeModule tb js
        ⟨"baz_x".data, "baz".data, some ("1".data), some ("lib/x.js".data)⟩ t_ov initState) := by
    rw [processModule_succ]
    have hfetch : fetch
        (ProcArgs.originalModuleName ⟨"baz_x".data, "baz".data, some ("1".data),
          some ("lib/x.js".data)⟩)
        (ProcArgs.moduleVersion ⟨"baz_x".data, "baz".data, some ("1".data),
          some ("lib/x.js".data)⟩)
        (ProcArgs.modulePath ⟨"baz_x".data, "baz".data, some ("1".data),
          some ("lib/x.js".data)⟩) = t_ov := hf2
    rw [hfetch, List.foldl_cons, depStep_eval]
    rw [if_pos (show (splitPackageVersion ("baz@1".data)).name ≠
      ProcArgs.moduleName ⟨"baz_x".data, "baz".data, some ("1".data), some ("lib/x.js".data)⟩
      from by decide)]
    rw [hppat, show (splitPackageVersion ("baz@1".data)).name = "baz".data from by decide]
    rw [replaceAll_of_not_substr _ ("baz".data) t_ov hnp]
    rw [hreg, List.foldl_cons, List.foldl_nil]
    rw [overrideStep_nofire _ _ _ _ _ (by rw [hovp]; exact replaceAll_of_not_substr _ _ _ hno)]
    rfl
  have houter : processModule fetch bazRegistry tb js ["baz@1".data] 2
      ⟨"baz".data, "baz".data, some ("1".data), none⟩ initState =
      some (finalizeModule tb js ⟨"baz".data, "baz".data, some ("1".data), none⟩
        (replaceAll ("/npm/baz@1/lib/x.js".data) ("baz_x".data) t_m)
        (finalizeModule tb js
          ⟨"baz_x".data, "baz".data, some ("1".data), some ("lib/x.js".data)⟩ t_ov initState)) := by
    rw [processModule_succ]
    have hfetch : fetch
        (ProcArgs.originalModuleName ⟨"baz".data, "baz".data, some ("1".data), none⟩)
        (ProcArgs.moduleVersion ⟨"baz".data, "baz".data, some ("1".data), none⟩)
        (ProcArgs.modulePath ⟨"baz".data, "baz".data, some ("1".data), none⟩) = t_m := hf1
    rw [hfetch, List.foldl_cons, depStep_eval]
    rw [if_neg (show ¬ ((splitPackageVersion ("baz@1".data)).name ≠
      ProcArgs.moduleName ⟨"baz".data, "baz".data, some ("1".data), none⟩) from by decide)]
    rw [hreg, List.foldl_cons, List.foldl_nil]
    rw [overrideStep_fire _ _ _ _ _ _ hfire (by
      rw [show (⟨bazOverride.moduleName, (splitPackageVersion ("baz@1".data)).originalName,
        (splitPackageVersion ("baz@1".data)).version, some bazOverride.relativePath⟩ : ProcArgs) =
        ⟨"baz_x".data, "baz".data, some ("1".data), some ("lib/x.js".data)⟩ from by decide]
      exact hinner)]
    rw [hovp]
    rfl
  have happ := appRun_singleton fetch bazRegistry tb js ("baz".data) ("baz@1".data) 2
    (finalizeModule tb js ⟨"baz".data, "baz".data, some ("1".data), none⟩
      (replaceAll ("/npm/baz@1/lib/x.js".data) ("baz_x".data) t_m)
      (finalizeModule tb js ⟨"baz_x".data, "baz".data, some ("1".data), some ("lib/x.js".data)⟩
        t_ov initState))
    (by
      rw [show (⟨(splitPackageVersion ("baz@1".data)).name,
        (splitPackageVersion ("baz@1".data)).originalName,
        (splitPackageVersion ("baz@1".data)).version, none⟩ : ProcArgs) =
        ⟨"baz".data, "baz".data, some ("1".data), none⟩ from by decide]
      exact houter)
  exact ⟨_, happ, by simp [finalize_envImports, initState],
    by simp [finalize_written, initState], by rw [← hovp]; exact hfire⟩

/-- Witness for C3: a concrete fetch serving `Q/npm/baz@1/lib/x.jsW` as the
module source of `baz` and `X` as the source of the secondary entry point. -/
theorem c3_witness :
    ∃ st, appRun
        (fun _ _ path => if path = some ("lib/x.js".data)
          then "X".data else "Q/npm/baz@1/lib/x.jsW".data)
        bazRegistry ("tb".data) ("js".data) 2 ["baz@1".data] ("baz".data) = some st ∧
      st.envImports = [importOf ("baz_x".data), importOf ("baz".data)] ∧
      st.written = [("baz_x".data, "X".data),
        ("baz".data, replaceAll ("/npm/baz@1/lib/x.js".data) ("baz_x".data)
          ("Q/npm/baz@1/lib/x.jsW".data))] ∧
      replaceAll ("/npm/baz@1/lib/x.js".data) ("baz_x".data)
        ("Q/npm/baz@1/lib/x.jsW".data) ≠ "Q/npm/baz@1/lib/x.jsW".data :=
  c3_override_depth_first
    (fun _ _ path => if path = some ("lib/x.js".data)
      then "X".data else "Q/npm/baz@1/lib/x.jsW".data)
    ("tb".data) ("js".data) ("Q/npm/baz@1/lib/x.jsW".data) ("X".data)
    rfl rfl ⟨"Q".data, "W".data, rfl⟩
    ((subStrB_false_iff _ _).mp (by decide))
    ((subStrB_false_iff _ _).mp (by decide))

/-! ### Claim C2: no visited set, one artifact set per occurrence -/

/-- A dependency-loop step consults the registry only through the current
entry's original name: with no registered override for that name, the step
is the `emptyRegistry` step, whatever recursion functions are supplied
(neither is invoked, since the override loop runs over the empty list). -/
theorem depStep_no_override (reg : Registry)
    (recur recur2 : ProcArgs → RunState → Option RunState) (m : List Char)
    (acc : Option (List Char × RunState)) (d : List Char)
    (h : reg (splitPackageVersion d).originalName = []) :
    depStep reg recur m acc d = depStep emptyRegistry recur2 m acc d := by
  cases acc with
  | none => rfl
  | some ts =>
    obtain ⟨text, st⟩ := ts
    simp only [depStep, h, emptyRegistry, List.foldl_nil]

/-- With no registered override for any entry of the package list, a
`processModule` run is the `emptyRegistry` run (the override recursion is
never reached). -/
theorem processModule_no_override (fetch : Fetch) (reg : Registry) (tb js : List Char)
    (l : List (List Char))
    (h : ∀ d ∈ l, reg (splitPackageVersion d).originalName = []) :
    ∀ (f : Nat) (a : ProcArgs) (st : RunState),
      processModule fetch reg tb js l f a st =
        processModule fetch emptyRegistry tb js l f a st := by
  intro f a st
  cases f with
  | zero => rfl
  | succ f =>
    rw [processModule_succ, processModule_succ]
    rw [List.foldl_ext (depStep reg (processModule fetch reg tb js l f) a.moduleName)
      (depStep emptyRegistry (processModule fetch emptyRegistry tb js l f) a.moduleName)
      _ (fun acc d hd => depStep_no_override reg _ _ a.moduleName acc d (h d hd))]

/-- With no registered override for any listed package, the whole `app` run
coincides with the `emptyRegistry` run. -/
theorem appRun_no_override (fetch : Fetch) (reg : Registry) (tb js root : List Char)
    (l : List (List Char)) (fuel : Nat)
    (h : ∀ d ∈ l, reg (splitPackageVersion d).originalName = []) :
    appRun fetch reg tb js fuel l root = appRun fetch emptyRegistry tb js fuel l root := by
  unfold appRun
  rw [List.foldl_ext (appStep fetch reg tb js l fuel) (appStep fetch emptyRegistry tb js l fuel)
    (some initState) (fun acc d hd => by
      cases acc with
      | none => rfl
      | some st => exact processModule_no_override fetch reg tb js l h fuel _ st)]

/-- Claim C2, amended: the code performs no de-duplication — under the
source's registry, in a run none of whose packages has a registered
secondary entry point, it processes one module per occurrence of an entry in
the dependency list, appending one load line, one create statement, one drop
statement and one environment import per occurrence.  Each artifact
therefore appears exactly once provided the list induces pairwise-distinct
artifact lines (re-requesting a processed triple is re-processed, not a
no-op; a fired override appends the secondary module's artifacts in
addition). -/
theorem c2_amended (fetch : Fetch) (tb js root : List Char) (l : List (List Char)) (f : Nat)
    (e : List Char) (he : e ∈ l)
    (hreg : ∀ d ∈ l, additionalModulePaths (splitPackageVersion d).originalName = [])
    (h1 : (l.map fun x => importOf (splitPackageVersion x).name).Nodup)
    (h2 : (l.map fun x =>
      loadLineOf js (splitPackageVersion x).name (splitPackageVersion x).version).Nodup)
    (h3 : (l.map fun x =>
      createStmtOf tb (splitPackageVersion x).name (splitPackageVersion x).version).Nodup)
    (h4 : (l.map fun x => dropStmtOf (splitPackageVersion x).name).Nodup) :
    ∃ st, appRun fetch additionalModulePaths tb js (f + 1) l root = some st ∧
      List.count (importOf (splitPackageVersion e).name) st.envImports = 1 ∧
      List.count (loadLineOf js (splitPackageVersion e).name (splitPackageVersion e).version)
        st.loadModuleLines = 1 ∧
      List.count (createStmtOf tb (splitPackageVersion e).name (splitPackageVersion e).version)
        st.createStatements = 1 ∧
      List.count (dropStmtOf (splitPackageVersion e).name) st.dropStatements = 1 := by
  refine ⟨emptyRunResult fetch tb js root l, ?_, ?_, ?_, ?_, ?_⟩
  · rw [appRun_no_override fetch additionalModulePaths tb js root l (f + 1) hreg]
    exact appRun_empty fetch tb js root l f
  · show List.count _ (l.map fun x => importOf (splitPackageVersion x).name) = 1
    exact count_one_of_nodup_mem _ _ h1 (List.mem_map_of_mem _ he)
  · show List.count _ (l.map fun x =>
      loadLineOf js (splitPackageVersion x).name (splitPackageVersion x).version) = 1
    exact count_one_of_nodup_mem _ _ h2 (List.mem_map_of_mem _ he)
  · show List.count _ ((l.map fun x =>
      createStmtOf tb (splitPackageVersion x).name (splitPackageVersion x).version)
        ++ [envCreateStmt root (l.map fun x => importOf (splitPackageVersion x).name)]) = 1
    rw [List.count_append, count_one_of_nodup_mem _ _ h3 (List.mem_map_of_mem _ he),
      List.count_eq_zero.mpr (by
        simp only [List.mem_singleton]
        exact create_ne_envCreate tb (splitPackageVersion e).name (splitPackageVersion e).version
          root _)]
  · show List.count _ ((l.map fun x => dropStmtOf (splitPackageVersion x).name)
        ++ [envDropStmt root]) = 1
    rw [List.count_append, count_one_of_nodup_mem _ _ h4 (List.mem_map_of_mem _ he),
      List.count_eq_zero.mpr (by
        simp only [List.mem_singleton]
        exact drop_ne_envDrop (splitPackageVersion e).name root)]

/-- Claim C2, witness for the amended theorem at a concrete duplicate-free
run. -/
theorem c2_witness :
    (("foo@1".data ∈ ["foo@1".data, "bar@2".data]) ∧
      ((["foo@1".data, "bar@2".data].map fun x =>
        importOf (splitPackageVersion x).name).Nodup)) ∧
      ∃ st, appRun (fun _ _ _ => "t".data) additionalModulePaths ("tb".data) ("js".data) 1
          ["foo@1".data, "bar@2".data] ("r".data) = some st ∧
        List.count (importOf (splitPackageVersion ("foo@1".data)).name) st.envImports = 1 ∧
        List.count (loadLineOf ("js".data) (splitPackageVersion ("foo@1".data)).name
          (splitPackageVersion ("foo@1".data)).version) st.loadModuleLines = 1 ∧
        List.count (createStmtOf ("tb".data) (splitPackageVersion ("foo@1".data)).name
          (splitPackageVersion ("foo@1".data)).version) st.createStatements = 1 ∧
        List.count (dropStmtOf (splitPackageVersion ("foo@1".data)).name) st.dropStatements = 1 :=
  ⟨⟨by decide, by decide⟩,
    c2_amended (fun _ _ _ => "t".data) ("tb".data) ("js".data) ("r".data)
      ["foo@1".data, "bar@2".data] 0 ("foo@1".data)
      (by decide) (by decide) (by decide) (by decide) (by decide) (by decide)⟩

